import Mathlib

/-!
# Verification of the Hex MCTS engine (`HexMctsBranching.cpp`)

A shallow embedding of the board/state representation, the connectivity win
check, the heuristic move-prior generator, the search-tree node statistics and
the re-rooting operation of the Hex move-selection engine, together with proofs
of the specification's claims about them.

Conventions of the embedding:
* C++ `int` coordinates become `Int`; the piece counter (only ever incremented
  from 0) becomes `Nat`.
* `float` quantities that the claims treat algebraically (qualities, priors,
  results) become `ℚ`, i.e. ideal real arithmetic; the UCT score, which uses
  `sqrt` and `log`, is modelled over `ℝ`.
* The 11×11 `signed char` grid becomes a function `Int → Int → Int`
  (0 empty, 1 red / side A, -1 black / side B); the code only ever reads
  in-range cells.
* C++ functions that mutate state by reference become functions returning the
  new state; `std::vector` becomes `List` (`push_back` appends at the tail,
  `pop_back` removes the tail element); the child `unordered_map` of a tree
  node becomes an association list.
-/

set_option maxHeartbeats 1000000

/-! ## Data model -/

/-- Embeds `struct action2D` (a 2-d action, hashable/comparable by both
coordinates). -/
structure action2D where
  actionX : Int
  actionY : Int
deriving DecidableEq

/-- Embeds `struct ActionPrior` (an action together with its heuristic prior
weight, `float probability`). -/
structure ActionPrior where
  action : action2D
  probability : ℚ
deriving DecidableEq

/-- Embeds the data members of `class GameState`: the 11×11 board
(`signed char board[11][11]`, 0 empty / 1 red / -1 black) and the number of
placed pieces (`int totalPieces`). -/
structure GameState where
  board : Int → Int → Int
  totalPieces : Nat

/-- Embeds the default constructor `GameState()` (zero-initialized board,
`totalPieces = 0`). -/
def GameState.init : GameState := ⟨fun _ _ => 0, 0⟩

/-- Embeds `GameState::boardIsFull` (`totalPieces == 121`). -/
def GameState.boardIsFull (g : GameState) : Bool :=
  g.totalPieces == 121

/-- Embeds `GameState::redPlaysNext` (`totalPieces % 2 == 0`). -/
def GameState.redPlaysNext (g : GameState) : Bool :=
  g.totalPieces % 2 == 0

/-- Embeds `GameState::redPlayedLast` (`!redPlaysNext()`). -/
def GameState.redPlayedLast (g : GameState) : Bool :=
  !g.redPlaysNext

/-- Embeds `GameState::plays(action2D)`: if the action is inside the grid the
mover's mark is written into the cell, the piece count is incremented and
`true` is returned; otherwise `false` is returned and nothing changes.  The
C++ mutates `*this` and returns `bool`; the embedding returns the pair
(returned `bool`, state after the call). -/
def GameState.plays (g : GameState) (action : action2D) : Bool × GameState :=
  if 0 ≤ action.actionX ∧ action.actionX < 11 ∧ 0 ≤ action.actionY ∧ action.actionY < 11 then
    (true,
      { board := fun i j =>
          if i = action.actionX ∧ j = action.actionY then
            (if g.totalPieces % 2 = 0 then 1 else -1)
          else g.board i j
        totalPieces := g.totalPieces + 1 })
  else
    (false, g)

/-! ## The connectivity win check: `findLinkedNodes`, `dfs`, `oneSideTest` -/

/-- The sequence of neighbour cells that `findLinkedNodes` probes, in program
order, including the boundary guards of the six `if` blocks: left, right,
row-up, row-up/col-right, row-down, row-down/col-left. -/
def linkCands (action : action2D) : List action2D :=
  let row := action.actionX
  let col := action.actionY
  (if 0 < col then [⟨row, col - 1⟩] else []) ++
  (if col < 10 then [⟨row, col + 1⟩] else []) ++
  (if 0 < row then [⟨row - 1, col⟩] else []) ++
  (if 0 < row ∧ col < 10 then [⟨row - 1, col + 1⟩] else []) ++
  (if row < 10 then [⟨row + 1, col⟩] else []) ++
  (if row < 10 ∧ 0 < col then [⟨row + 1, col - 1⟩] else [])

/-- One guarded probe of `findLinkedNodes`: if the probed neighbour `tmp` is
found in the remaining piece pool it is appended to the result
(`result.push_back(tmp)`) and erased from the pool (`pieceList.erase(it)`,
which removes the first occurrence). -/
def probeLinked (st : List action2D × List action2D) (tmp : action2D) :
    List action2D × List action2D :=
  if tmp ∈ st.2 then (st.1 ++ [tmp], st.2.erase tmp) else st

/-- Embeds `findLinkedNodes(action, pieceList)`: probes the six (boundary
guarded) hex neighbours of `action` in program order; every neighbour found in
`pieceList` is moved from the pool into the result vector.  The C++ mutates
`pieceList` by reference and returns the result vector; the embedding returns
(result vector, remaining pool). -/
def findLinkedNodes (action : action2D) (pieceList : List action2D) :
    List action2D × List action2D :=
  (linkCands action).foldl probeLinked ([], pieceList)

/-- Embeds the recursive helper `dfs(frontier, pieceList, isRed)`: pops the
back of the frontier, declares success when the popped cell touches the target
edge (`actionX == 10` for red, `actionY == 10` for black), and otherwise moves
the popped cell's linked neighbours from the pool onto the back of the frontier
and recurses.  Terminates because the frontier+pool cell count strictly
decreases. -/
def dfs (frontier : List action2D) (pieceList : List action2D) (isRed : Bool) : Bool :=
  if h : frontier = [] then
    false
  else
    if isRed && ((frontier.getLast h).actionX == 10) then
      true
    else if !isRed && ((frontier.getLast h).actionY == 10) then
      true
    else
      dfs (frontier.dropLast ++ (findLinkedNodes (frontier.getLast h) pieceList).1)
        (findLinkedNodes (frontier.getLast h) pieceList).2 isRed
termination_by frontier.length + pieceList.length
decreasing_by
  have key : ∀ (cands : List action2D) (st : List action2D × List action2D),
      (cands.foldl probeLinked st).1.length + (cands.foldl probeLinked st).2.length =
        st.1.length + st.2.length := by
    intro cands
    induction cands with
    | nil => intro st; rfl
    | cons c cs ih =>
      intro st
      rw [List.foldl_cons, ih]
      unfold probeLinked
      split
      next hm =>
        have h2 : 0 < st.2.length := List.length_pos.mpr (List.ne_nil_of_mem hm)
        simp only [List.length_append, List.length_singleton, List.length_erase_of_mem hm]
        omega
      next => rfl
  have hlen := key (linkCands (frontier.getLast h)) ([], pieceList)
  have hfr : 1 ≤ frontier.length := List.length_pos.mpr h
  simp only [List.length_nil, Nat.zero_add] at hlen
  simp only [findLinkedNodes, List.length_append, List.length_dropLast]
  omega

/-- Embeds the `pieceLocs` collection loop of `GameState::oneSideTest`: scan
rows `i = 0..10` and columns `j = 0..10` in order and collect every cell that
holds the tested side's mark (1 for red, -1 for black). -/
def pieceLocsOf (g : GameState) (isRed : Bool) : List action2D :=
  (List.range 11).flatMap fun (i : Nat) =>
    (List.range 11).filterMap fun (j : Nat) =>
      if g.board (i : Int) (j : Int) = (if isRed then 1 else -1) then
        some ⟨(i : Int), (j : Int)⟩
      else none

/-- The predicate splitting the collected stones of `oneSideTest` into starting
stones and interior stones: `(isRed && actionX == 0) || (!isRed && actionY == 0)`. -/
def isStartingLoc (isRed : Bool) (a : action2D) : Bool :=
  (isRed && (a.actionX == 0)) || (!isRed && (a.actionY == 0))

/-- Embeds `GameState::oneSideTest(isRed)`: collect the side's stones; if fewer
than 11 report no win; split them into edge-adjacent starting stones and the
interior pool; if there is no starting stone report no win; otherwise run the
depth-first reachability search. -/
def GameState.oneSideTest (g : GameState) (isRed : Bool) : Bool :=
  let pieceLocs := pieceLocsOf g isRed
  if pieceLocs.length < 11 then
    false
  else
    let startingLocs := pieceLocs.filter (fun a => isStartingLoc isRed a)
    let pieceList := pieceLocs.filter (fun a => !isStartingLoc isRed a)
    if startingLocs.length = 0 then
      false
    else
      dfs startingLocs pieceList isRed

/-- Embeds `GameState::checkTermination`: 1 if red has won, else -1 if black
has won, else 0. -/
def GameState.checkTermination (g : GameState) : Int :=
  if g.oneSideTest true then 1
  else if g.oneSideTest false then -1
  else 0

/-- Embeds `GameState::lastPlayerWon`. -/
def GameState.lastPlayerWon (g : GameState) : Bool :=
  g.oneSideTest g.redPlayedLast

/-! ## The heuristic move-prior generator: `outputActionPrior` -/

/-- Embeds `computeRangeBound(action, hexRange)`: the clamped bounds
`(left, right, up, bot)` = `(max 0 (x-r), min 10 (x+r), max 0 (y-r), min 10 (y+r))`. -/
def computeRangeBound (action : action2D) (hexRange : Int) : Int × Int × Int × Int :=
  (max 0 (action.actionX - hexRange), min 10 (action.actionX + hexRange),
   max 0 (action.actionY - hexRange), min 10 (action.actionY + hexRange))

/-- The list of integers visited by a C++ loop `for (v = lo; v < hi + 1; v++)`. -/
def intLoop (lo hi : Int) : List Int :=
  (List.range (hi + 1 - lo).toNat).map fun (k : Nat) => lo + (k : Int)

/-- Embeds the heuristic-weight lambda inside `outputActionPrior`: start from
1.0; count both sides' stones over the loop `i ∈ [u1, b1], j ∈ [l1, r1]`
reading `board[i][j]` (with `l1,r1` derived from `actionX` and `u1,b1` from
`actionY`, exactly as the code indexes); double the weight on the
contested/bridge pattern, double it again on a dense cluster (≥ 4 stones), and
multiply by 1.5 for candidates in the central 8×8 sub-board. -/
def heuristicMultiplierFor (g : GameState) (action : action2D) : ℚ :=
  let bounds := computeRangeBound action 1
  let l1 := bounds.1
  let r1 := bounds.2.1
  let u1 := bounds.2.2.1
  let b1 := bounds.2.2.2
  let cells := (intLoop u1 b1).flatMap fun i => (intLoop l1 r1).map fun j => (i, j)
  let redPiece := cells.countP fun c => g.board c.1 c.2 == 1
  let blackPiece := cells.countP fun c => g.board c.1 c.2 == -1
  let h1 : ℚ := 1
  let h2 := if (1 ≤ redPiece ∧ 1 < blackPiece) ∨ (1 < redPiece ∧ 1 ≤ blackPiece)
    then h1 * 2 else h1
  let h3 := if 4 ≤ redPiece + blackPiece then h2 * 2 else h2
  if 2 ≤ action.actionX ∧ action.actionX ≤ 9 ∧ 2 ≤ action.actionY ∧ action.actionY ≤ 9
    then h3 * (3 / 2) else h3

/-- The excluded-border width (`range`) computed at the top of
`outputActionPrior`: 3 for `totalPieces ≤ 4`, 2 for `≤ 8`, 1 for `≤ 12`,
else 0. -/
def shrinkMargin (totalPieces : Nat) : Nat :=
  if totalPieces ≤ 4 then 3
  else if totalPieces ≤ 8 then 2
  else if totalPieces ≤ 12 then 1
  else 0

/-- Embeds `GameState::outputActionPrior(forcedFirst, forcedPlay)`: on an empty
board with forcing requested, the single forced action; otherwise the empty
cells of the window `[range, 10-range]²` scanned row-major, where
`range = shrinkMargin totalPieces` (the loop `for (i = range; i < 11 - range;
i++)` visits `11 - 2*range` values from `range`).  Each candidate is paired
with its heuristic weight. -/
def GameState.outputActionPrior (g : GameState) (forcedFirst : Bool)
    (forcedPlay : action2D) : List ActionPrior :=
  (if g.totalPieces = 0 ∧ forcedFirst = true then
    [forcedPlay]
  else
    (List.range' (shrinkMargin g.totalPieces) (11 - 2 * shrinkMargin g.totalPieces)).flatMap
      fun (i : Nat) =>
        (List.range' (shrinkMargin g.totalPieces)
            (11 - 2 * shrinkMargin g.totalPieces)).filterMap fun (j : Nat) =>
          if g.board (i : Int) (j : Int) = 0 then some ⟨(i : Int), (j : Int)⟩ else none
  ).map fun action => ⟨action, heuristicMultiplierFor g action⟩

/-! ## The search-tree node: `MCTSNode` -/

/-- Embeds `class MCTSNode`.  The owning `unordered_map` from action to child
becomes an association list; the non-owning `_parent` back-reference cannot be
represented inside a tree value, so the embedding keeps the one bit of it the
code observes (`_parent == nullptr`, for `isRoot`) as `hasParent`. -/
inductive MCTSNode : Type where
  | mk (hasParent : Bool) (nVisits : Nat) (quality : ℚ) (uct : ℚ)
      (heuristicFactor : ℚ) (isRed : Bool) (children : List (action2D × MCTSNode))

/-- The `_parent != nullptr` bit. -/
def MCTSNode.hasParent : MCTSNode → Bool
  | .mk hp _ _ _ _ _ _ => hp

/-- The `_nVisits` member. -/
def MCTSNode.nVisits : MCTSNode → Nat
  | .mk _ v _ _ _ _ _ => v

/-- The `_quality` member. -/
def MCTSNode.quality : MCTSNode → ℚ
  | .mk _ _ q _ _ _ _ => q

/-- The `_uct` member. -/
def MCTSNode.uct : MCTSNode → ℚ
  | .mk _ _ _ u _ _ _ => u

/-- The `_heuristicFactor` member. -/
def MCTSNode.heuristicFactor : MCTSNode → ℚ
  | .mk _ _ _ _ h _ _ => h

/-- The `_isRed` member. -/
def MCTSNode.isRed : MCTSNode → Bool
  | .mk _ _ _ _ _ r _ => r

/-- The `_children` member. -/
def MCTSNode.children : MCTSNode → List (action2D × MCTSNode)
  | .mk _ _ _ _ _ _ c => c

/-- Embeds `MCTSNode::isLeaf` (`_children.size() == 0`). -/
def MCTSNode.isLeaf (n : MCTSNode) : Bool :=
  n.children.length == 0

/-- Embeds `MCTSNode::isRoot` (`_parent == nullptr`). -/
def MCTSNode.isRoot (n : MCTSNode) : Bool :=
  !n.hasParent

/-- Embeds `MCTSNode::setParentNull` (`_parent = nullptr`; statistics and
children untouched). -/
def MCTSNode.setParentNull : MCTSNode → MCTSNode
  | .mk _ v q u h r c => .mk false v q u h r c

/-- Embeds `MCTSNode::update(result)`: `_nVisits += 1;`
`_quality += (result - _quality) / _nVisits` (with the already incremented
visit count). -/
def MCTSNode.update (n : MCTSNode) (result : ℚ) : MCTSNode :=
  .mk n.hasParent (n.nVisits + 1)
    (n.quality + (result - n.quality) / (n.nVisits + 1))
    n.uct n.heuristicFactor n.isRed n.children

/-- Embeds `MCTSNode::update_from_root(result)` acting on an explicit ancestor
chain `[node, parent, …, root]` (the embedding of the `_parent` pointer chain):
the parent chain is updated first with `-result * 0.95`
(`_parent->update_from_root(-result * 0.95)`), then the node itself records
`result` (`update(result)`). -/
def update_from_root : List MCTSNode → ℚ → List MCTSNode
  | [], _ => []
  | n :: ancestors, result =>
      n.update result :: update_from_root ancestors (-result * 0.95)

/-- The sequence of `update(...)` calls performed by `update_from_root`, in
execution order: the recursion into the parent happens before the node's own
`update`, so the root's recorded result comes first and the starting node's
last. -/
def update_from_root_order : List MCTSNode → ℚ → List ℚ
  | [], _ => []
  | _ :: ancestors, result =>
      update_from_root_order ancestors (-result * 0.95) ++ [result]

/-- Embeds `MCTSNode::evaluation(xplorCoeff)` as a function of the quantities
it reads: `_quality + _heuristicFactor * xplorCoeff * sqrt(2 * log(_parent->_nVisits)) / (1 + _nVisits)`. -/
noncomputable def evaluationUCT (heuristicFactor xplorCoeff : ℝ)
    (parentVisits nVisits : Nat) (quality : ℝ) : ℝ :=
  quality + heuristicFactor * xplorCoeff *
    Real.sqrt (2 * Real.log (parentVisits : ℝ)) / (1 + (nVisits : ℝ))

/-- `MCTSNode::evaluation` of a child, reading the parent's visit count through
the `_parent` back-reference. -/
noncomputable def childEvaluation (parent : MCTSNode) (xplorCoeff : ℝ)
    (child : MCTSNode) : ℝ :=
  evaluationUCT (child.heuristicFactor : ℝ) xplorCoeff parent.nVisits
    child.nVisits (child.quality : ℝ)

/-- Embeds `MCTSNode::select(xplorCoeff, isPlayout)`: `none` stands for the
end iterator when the node has no children; otherwise `std::max_element` over
the children — by UCT evaluation in playout mode, by visit count in final
mode — which keeps the earliest entry unless a strictly greater one appears. -/
noncomputable def MCTSNode.select (n : MCTSNode) (xplorCoeff : ℝ)
    (isPlayout : Bool) : Option (action2D × MCTSNode) :=
  match n.children with
  | [] => none
  | c :: cs =>
    if isPlayout then
      some (cs.foldl (fun best x =>
        if childEvaluation n xplorCoeff best.2 < childEvaluation n xplorCoeff x.2
        then x else best) c)
    else
      some (cs.foldl (fun best x =>
        if best.2.nVisits < x.2.nVisits then x else best) c)

/-! ## The search controller: `MCTS` -/

/-- Embeds the data members of `class MCTS`. -/
structure MCTS where
  root : MCTSNode
  xplorCoeff : ℝ
  timeLimit : Int
  state : GameState
  rolloutCounter : Int

/-- Embeds `MCTS::updateWithMove(action)`: if the root has a child under
`action`, the move is applied to the authoritative state and that child's
subtree becomes the new root with its parent reference cleared; otherwise the
move is applied and a fresh root (`MCTSNode(nullptr, 1.0, redPlayedLast())`,
zero statistics) is installed. -/
def MCTS.updateWithMove (t : MCTS) (action : action2D) : MCTS :=
  match List.lookup action t.root.children with
  | some child =>
      { t with state := (t.state.plays action).2, root := child.setParentNull }
  | none =>
      { t with
        state := (t.state.plays action).2
        root := MCTSNode.mk false 0 0 0 1 ((t.state.plays action).2).redPlayedLast [] }

/-- Models the tail of `MCTS::getNextMove` after the wall-clock-budget playout
loop (the loop itself polls real time and is out of the embedding's scope):
final-mode `select` on the root; if it returns the end iterator the degenerate
action `(0,0)` is returned, otherwise the selected child's action key. -/
noncomputable def getNextMoveFinal (root : MCTSNode) (xplorCoeff : ℝ) : action2D :=
  match root.select xplorCoeff false with
  | none => ⟨0, 0⟩
  | some it => it.1

/-! ## Specification-side notions (for the refinement claims) -/

/-- Modelled from the spec: the six hex neighbours of a cell (left, right,
row-up, row-up/col-right, row-down, row-down/col-left). -/
def hexNeighbors (a : action2D) : List action2D :=
  [⟨a.actionX, a.actionY - 1⟩, ⟨a.actionX, a.actionY + 1⟩,
   ⟨a.actionX - 1, a.actionY⟩, ⟨a.actionX - 1, a.actionY + 1⟩,
   ⟨a.actionX + 1, a.actionY⟩, ⟨a.actionX + 1, a.actionY - 1⟩]

/-- Hex adjacency of two cells. -/
def hexAdj (a b : action2D) : Prop := b ∈ hexNeighbors a

instance (a b : action2D) : Decidable (hexAdj a b) :=
  inferInstanceAs (Decidable (b ∈ hexNeighbors a))

/-- Structurally recursive decidability of hex-adjacency chains (kernel
reducible, so concrete chains can be checked by `decide`). -/
instance chainHexDecidable : ∀ l : List action2D, Decidable (List.Chain' hexAdj l)
  | [] => isTrue List.chain'_nil
  | [a] => isTrue (List.chain'_singleton a)
  | a :: b :: t =>
    match chainHexDecidable (b :: t) with
    | isTrue h =>
      if hab : hexAdj a b then
        isTrue (List.chain'_cons.mpr ⟨hab, h⟩)
      else
        isFalse fun hc => hab (List.chain'_cons.mp hc).1
    | isFalse h => isFalse fun hc => h (List.chain'_cons.mp hc).2

/-- The coordinate that measures progress from a side's starting edge to its
target edge: the row for red (side A), the column for black (side B). -/
def edgeCoord (isRed : Bool) (a : action2D) : Int :=
  if isRed then a.actionX else a.actionY

/-- A cell of the 11×11 grid. -/
def inGrid (a : action2D) : Prop :=
  0 ≤ a.actionX ∧ a.actionX ≤ 10 ∧ 0 ≤ a.actionY ∧ a.actionY ≤ 10

instance (a : action2D) : Decidable (inGrid a) :=
  inferInstanceAs (Decidable (0 ≤ a.actionX ∧ a.actionX ≤ 10 ∧
    0 ≤ a.actionY ∧ a.actionY ≤ 10))

/-- Modelled from the spec (claim C1): a contiguous hex-adjacent chain of one
side's stones joining that side's starting edge (coordinate 0) to its target
edge (coordinate 10): a nonempty list of grid cells all holding the side's
mark, consecutively hex-adjacent, whose first cell lies on the starting edge
and whose last cell lies on the target edge. -/
def isChain (g : GameState) (isRed : Bool) (p : List action2D) : Prop :=
  p ≠ [] ∧
  (∀ a ∈ p, inGrid a ∧ g.board a.actionX a.actionY = (if isRed then 1 else -1)) ∧
  List.Chain' hexAdj p ∧
  (p.map (edgeCoord isRed)).head? = some 0 ∧
  (p.map (edgeCoord isRed)).getLast? = some 10

/-- Removing a single stone from the board (the cell becomes empty). -/
def removeStone (g : GameState) (x : action2D) : GameState :=
  { board := fun i j => if i = x.actionX ∧ j = x.actionY then 0 else g.board i j
    totalPieces := g.totalPieces - 1 }

/-- Proof-side notion for the `dfs` correctness argument: from `x` a
probe-adjacent path (each step moves to a cell in `linkCands` of the previous
one) runs through distinct cells of `pool` to a cell on the target edge. -/
def ReachP (isRed : Bool) (pool : List action2D) (x : action2D) : Prop :=
  ∃ p : List action2D,
    p.head? = some x ∧
    List.Chain' (fun a b => b ∈ linkCands a) p ∧
    (∀ a ∈ p.tail, a ∈ pool) ∧
    p.tail.Nodup ∧
    (p.map (edgeCoord isRed)).getLast? = some 10

/-! ## Sequences of legal moves (claim C5) -/

/-- A legal move: in-bounds and targeting an empty cell. -/
def legalMoveB (g : GameState) (a : action2D) : Bool :=
  decide (0 ≤ a.actionX ∧ a.actionX ≤ 10 ∧ 0 ≤ a.actionY ∧ a.actionY ≤ 10) &&
    (g.board a.actionX a.actionY == 0)

/-- Each move of the list is legal in the state produced by the previous
moves. -/
def legalSeqB : GameState → List action2D → Bool
  | _, [] => true
  | g, a :: as => legalMoveB g a && legalSeqB (g.plays a).2 as

/-- Applying a sequence of moves via `plays`. -/
def applyAll (g : GameState) (ms : List action2D) : GameState :=
  ms.foldl (fun s a => (s.plays a).2) g

/-- The 121 cells of the grid, in the row-major order the scanning loops use. -/
def allCells : List action2D :=
  (List.range 11).flatMap fun (i : Nat) =>
    (List.range 11).map fun (j : Nat) => ⟨(i : Int), (j : Int)⟩

/-- The number of occupied cells of the board. -/
def occupiedCount (g : GameState) : Nat :=
  allCells.countP fun a => !(g.board a.actionX a.actionY == 0)

instance (g : GameState) (isRed : Bool) (p : List action2D) :
    Decidable (isChain g isRed p) :=
  inferInstanceAs (Decidable (p ≠ [] ∧
    (∀ a ∈ p, inGrid a ∧ g.board a.actionX a.actionY = (if isRed then 1 else -1)) ∧
    List.Chain' hexAdj p ∧
    (p.map (edgeCoord isRed)).head? = some 0 ∧
    (p.map (edgeCoord isRed)).getLast? = some 10))

/-- A concrete test board: red owns exactly the straight column `(i, 0)` for
`i = 0..10`, the unique red chain joining row 0 to row 10. -/
def colBoard : GameState :=
  ⟨fun i j => if 0 ≤ i ∧ i ≤ 10 ∧ j = 0 then 1 else 0, 11⟩

/-- The straight column chain `[(0,0), (1,0), …, (10,0)]`. -/
def colChain : List action2D :=
  (List.range 11).map fun (i : Nat) => ⟨(i : Int), 0⟩

/-! # Theorems -/

/-! ## C4: rejection of out-of-range moves -/

/-- C4: `plays` (the spec's `applyMove`) on an action whose row or column lies
outside `[0,10]` returns failure and leaves the state — board grid and piece
count — unchanged. -/
theorem plays_out_of_range (g : GameState) (a : action2D)
    (h : a.actionX < 0 ∨ 10 < a.actionX ∨ a.actionY < 0 ∨ 10 < a.actionY) :
    (g.plays a).1 = false ∧ (g.plays a).2 = g := by
  have hcond : ¬(0 ≤ a.actionX ∧ a.actionX < 11 ∧ 0 ≤ a.actionY ∧ a.actionY < 11) := by
    omega
  simp [GameState.plays, hcond]

/-- Witness for C4 at the concrete out-of-range action `(-1, 5)` on the fresh
board. -/
theorem plays_out_of_range_witness :
    ((-1 : Int) < 0 ∨ 10 < (-1 : Int) ∨ (5 : Int) < 0 ∨ 10 < (5 : Int)) ∧
      (GameState.init.plays ⟨-1, 5⟩).1 = false ∧
      (GameState.init.plays ⟨-1, 5⟩).2 = GameState.init := by
  refine ⟨by decide, ?_, ?_⟩
  · exact (plays_out_of_range GameState.init ⟨-1, 5⟩ (by decide)).1
  · exact (plays_out_of_range GameState.init ⟨-1, 5⟩ (by decide)).2

/-! ## Behaviour of `findLinkedNodes` (pool bookkeeping) -/

theorem probeLinked_length (st : List action2D × List action2D) (tmp : action2D) :
    (probeLinked st tmp).1.length + (probeLinked st tmp).2.length =
      st.1.length + st.2.length := by
  unfold probeLinked
  split
  · next h =>
    have h2 : 0 < st.2.length := List.length_pos.mpr (List.ne_nil_of_mem h)
    simp only [List.length_append, List.length_singleton, List.length_erase_of_mem h]
    omega
  · rfl

theorem foldl_probeLinked_length (cands : List action2D)
    (st : List action2D × List action2D) :
    (cands.foldl probeLinked st).1.length + (cands.foldl probeLinked st).2.length =
      st.1.length + st.2.length := by
  induction cands generalizing st with
  | nil => rfl
  | cons c cs ih => rw [List.foldl_cons, ih, probeLinked_length]

/-- `findLinkedNodes` conserves cells: result length plus remaining pool
length equals the input pool length. -/
theorem findLinkedNodes_length (action : action2D) (pieceList : List action2D) :
    (findLinkedNodes action pieceList).1.length +
      (findLinkedNodes action pieceList).2.length = pieceList.length := by
  unfold findLinkedNodes
  rw [foldl_probeLinked_length]
  simp

/-- Elements of the result of a probe fold: either already in the result
accumulator, or a probed candidate taken from the pool. -/
theorem foldl_probeLinked_fst_mem (cands : List action2D)
    (st : List action2D × List action2D) (a : action2D)
    (h : a ∈ (cands.foldl probeLinked st).1) :
    a ∈ st.1 ∨ (a ∈ st.2 ∧ a ∈ cands) := by
  induction cands generalizing st with
  | nil => exact Or.inl h
  | cons c cs ih =>
    rw [List.foldl_cons] at h
    rcases ih _ h with h1 | ⟨h2, h3⟩
    · unfold probeLinked at h1
      split at h1
      · rcases List.mem_append.mp h1 with h4 | h4
        · exact Or.inl h4
        · next hm =>
          rcases List.mem_singleton.mp h4 with rfl
          exact Or.inr ⟨hm, List.mem_cons_self _ _⟩
      · exact Or.inl h1
    · unfold probeLinked at h2
      split at h2
      · exact Or.inr ⟨List.erase_subset _ _ h2, List.mem_cons_of_mem _ h3⟩
      · exact Or.inr ⟨h2, List.mem_cons_of_mem _ h3⟩

/-- The remaining pool after a probe fold is a subset of the input pool. -/
theorem foldl_probeLinked_snd_subset (cands : List action2D)
    (st : List action2D × List action2D) (a : action2D)
    (h : a ∈ (cands.foldl probeLinked st).2) :
    a ∈ st.2 := by
  induction cands generalizing st with
  | nil => exact h
  | cons c cs ih =>
    rw [List.foldl_cons] at h
    have h2 := ih _ h
    unfold probeLinked at h2
    split at h2
    · exact List.erase_subset _ _ h2
    · exact h2

/-- No pool cell is lost by a probe fold: it ends up in the result or in the
remaining pool. -/
theorem foldl_probeLinked_cover (cands : List action2D)
    (st : List action2D × List action2D) (a : action2D)
    (h : a ∈ st.1 ∨ a ∈ st.2) :
    a ∈ (cands.foldl probeLinked st).1 ∨ a ∈ (cands.foldl probeLinked st).2 := by
  induction cands generalizing st with
  | nil => exact h
  | cons c cs ih =>
    rw [List.foldl_cons]
    refine ih _ ?_
    unfold probeLinked
    split
    · next hm =>
      rcases h with h1 | h2
      · exact Or.inl (List.mem_append_left _ h1)
      · by_cases hac : a = c
        · exact Or.inl (List.mem_append_right _ (by simp [hac]))
        · exact Or.inr ((List.mem_erase_of_ne hac).mpr h2)
    · exact h

/-- The result accumulator of a probe fold only ever grows. -/
theorem foldl_probeLinked_fst_mono (cands : List action2D)
    (st : List action2D × List action2D) (a : action2D) (h : a ∈ st.1) :
    a ∈ (cands.foldl probeLinked st).1 := by
  induction cands generalizing st with
  | nil => exact h
  | cons c cs ih =>
    rw [List.foldl_cons]
    refine ih _ ?_
    unfold probeLinked
    split
    · exact List.mem_append_left _ h
    · exact h

/-- A probe fold keeps the pool duplicate-free and disjoint from the result. -/
theorem foldl_probeLinked_nodup_disj (cands : List action2D)
    (st : List action2D × List action2D) (h2 : st.2.Nodup)
    (hd : ∀ a ∈ st.1, a ∉ st.2) :
    (cands.foldl probeLinked st).2.Nodup ∧
      ∀ a ∈ (cands.foldl probeLinked st).1, a ∉ (cands.foldl probeLinked st).2 := by
  induction cands generalizing st with
  | nil => exact ⟨h2, hd⟩
  | cons c cs ih =>
    rw [List.foldl_cons]
    refine ih _ ?_ ?_
    · unfold probeLinked
      split
      · exact h2.erase c
      · exact h2
    · unfold probeLinked
      split
      · next hm =>
        intro a ha
        rcases List.mem_append.mp ha with ha1 | ha1
        · intro hc
          exact hd a ha1 (List.erase_subset _ _ hc)
        · rcases List.mem_singleton.mp ha1 with rfl
          intro hc
          exact ((h2.mem_erase_iff.mp hc).1 rfl)
      · exact hd

/-- A probed candidate present in the pool (or already collected) is collected
by the fold. -/
theorem foldl_probeLinked_found (cands : List action2D)
    (st : List action2D × List action2D) (a : action2D)
    (hc : a ∈ cands) (h : a ∈ st.1 ∨ a ∈ st.2) :
    a ∈ (cands.foldl probeLinked st).1 := by
  induction cands generalizing st with
  | nil => cases hc
  | cons c cs ih =>
    rw [List.foldl_cons]
    by_cases hac : a = c
    · subst hac
      refine foldl_probeLinked_fst_mono cs _ a ?_
      unfold probeLinked
      split
      · exact List.mem_append_right _ (by simp)
      · next hm =>
        rcases h with h1 | h2
        · exact h1
        · exact absurd h2 hm
    · have hc2 : a ∈ cs := by
        rcases List.mem_cons.mp hc with h1 | h1
        · exact absurd h1 hac
        · exact h1
      refine ih _ hc2 ?_
      unfold probeLinked
      split
      · rcases h with h1 | h2
        · exact Or.inl (List.mem_append_left _ h1)
        · exact Or.inr ((List.mem_erase_of_ne hac).mpr h2)
      · exact h

/-- Membership in the result of `findLinkedNodes`: exactly the pool cells
among the probed neighbour candidates. -/
theorem findLinkedNodes_fst_mem (action : action2D) (pl : List action2D)
    (a : action2D) :
    a ∈ (findLinkedNodes action pl).1 ↔ a ∈ pl ∧ a ∈ linkCands action := by
  constructor
  · intro h
    rcases foldl_probeLinked_fst_mem _ _ _ h with h1 | ⟨h2, h3⟩
    · cases h1
    · exact ⟨h2, h3⟩
  · rintro ⟨h1, h2⟩
    exact foldl_probeLinked_found _ _ _ h2 (Or.inr h1)

/-- The remaining pool of `findLinkedNodes` is drawn from the input pool. -/
theorem findLinkedNodes_snd_subset (action : action2D) (pl : List action2D)
    (a : action2D) (h : a ∈ (findLinkedNodes action pl).2) : a ∈ pl :=
  foldl_probeLinked_snd_subset _ _ _ h

/-- No pool cell is lost by `findLinkedNodes`. -/
theorem findLinkedNodes_cover (action : action2D) (pl : List action2D)
    (a : action2D) (h : a ∈ pl) :
    a ∈ (findLinkedNodes action pl).1 ∨ a ∈ (findLinkedNodes action pl).2 :=
  foldl_probeLinked_cover _ _ _ (Or.inr h)

/-- On a duplicate-free pool, `findLinkedNodes` keeps the remaining pool
duplicate-free and disjoint from the result. -/
theorem findLinkedNodes_nodup_disj (action : action2D) (pl : List action2D)
    (hn : pl.Nodup) :
    (findLinkedNodes action pl).2.Nodup ∧
      ∀ a ∈ (findLinkedNodes action pl).1, a ∉ (findLinkedNodes action pl).2 :=
  foldl_probeLinked_nodup_disj _ _ hn (by intro a ha; cases ha)

/-! ## C9: termination measure of the reachability search -/

/-- C9: one recursive step of `dfs` strictly shrinks the combined frontier+pool
size.  With the frontier written `rest ++ [node]` (so `node` is the popped back
element), the recursive call receives `(rest ++ [node]).dropLast ++ result` and
the remaining pool: `findLinkedNodes` conserves cells (each matched neighbour
is moved from the pool into the queued result, never duplicated: on a
duplicate-free pool result and remainder are disjoint), so the combined size
strictly decreases by exactly the popped cell. -/
theorem dfs_measure_strictly_decreases (rest pl : List action2D) (node : action2D) :
    (findLinkedNodes node pl).1.length + (findLinkedNodes node pl).2.length
        = pl.length ∧
    (∀ x ∈ (findLinkedNodes node pl).1, x ∈ pl) ∧
    (pl.Nodup → ∀ x ∈ (findLinkedNodes node pl).1, x ∉ (findLinkedNodes node pl).2) ∧
    ((rest ++ [node]).dropLast ++ (findLinkedNodes node pl).1).length +
        (findLinkedNodes node pl).2.length <
      (rest ++ [node]).length + pl.length := by
  refine ⟨findLinkedNodes_length node pl,
    fun x hx => ((findLinkedNodes_fst_mem node pl x).mp hx).1,
    fun hn => (findLinkedNodes_nodup_disj node pl hn).2, ?_⟩
  have hlen := findLinkedNodes_length node pl
  simp only [List.length_append, List.length_dropLast, List.length_singleton]
  omega

/-- Witness for C9 at a concrete frontier `[(0,0)]` and pool `[(0,1)]` (the
pool cell is a neighbour of the popped cell, so it moves into the queue and
the measure drops from 2 to 1). -/
theorem dfs_measure_strictly_decreases_witness :
    ((findLinkedNodes ⟨0, 0⟩ [⟨0, 1⟩]).1.length +
        (findLinkedNodes ⟨0, 0⟩ [⟨0, 1⟩]).2.length = 1) ∧
    (([] ++ [(⟨0, 0⟩ : action2D)]).dropLast ++ (findLinkedNodes ⟨0, 0⟩ [⟨0, 1⟩]).1).length +
        (findLinkedNodes ⟨0, 0⟩ [⟨0, 1⟩]).2.length <
      ([] ++ [(⟨0, 0⟩ : action2D)]).length + [(⟨0, 1⟩ : action2D)].length ∧
    (List.Nodup [(⟨0, 1⟩ : action2D)] →
      ∀ x ∈ (findLinkedNodes ⟨0, 0⟩ [⟨0, 1⟩]).1, x ∉ (findLinkedNodes ⟨0, 0⟩ [⟨0, 1⟩]).2) :=
  ⟨(dfs_measure_strictly_decreases [] [⟨0, 1⟩] ⟨0, 0⟩).1,
   (dfs_measure_strictly_decreases [] [⟨0, 1⟩] ⟨0, 0⟩).2.2.2,
   (dfs_measure_strictly_decreases [] [⟨0, 1⟩] ⟨0, 0⟩).2.2.1⟩

/-! ## C2: backpropagation `update_from_root` -/

/-- C2: on an ancestor chain `[N, parent, …, root]`, `update_from_root r`
records `r` unchanged at `N` itself and records `(-0.95)^k * r` at the
ancestor `k` levels above `N` (so the root, `D` levels up, receives
`(-0.95)^D * r`: the sign alternates with depth and the magnitude is `r`
scaled by `0.95^D`); moreover the execution order of the `update` calls
(`update_from_root_order`) runs from the root down to `N`, i.e. every ancestor
is updated before the node records its own value. -/
theorem update_from_root_spec (ns : List MCTSNode) (r : ℚ) :
    (update_from_root ns r).length = ns.length ∧
    (∀ (k : Nat) (n : MCTSNode), ns[k]? = some n →
      (update_from_root ns r)[k]? = some (n.update (((-0.95 : ℚ)) ^ k * r))) ∧
    update_from_root_order ns r =
      ((List.range ns.length).map fun k => ((-0.95 : ℚ)) ^ k * r).reverse := by
  induction ns generalizing r with
  | nil =>
    refine ⟨rfl, fun k n h => by simp at h, by simp [update_from_root_order]⟩
  | cons n0 rest ih =>
    refine ⟨?_, ?_, ?_⟩
    · simpa [update_from_root] using (ih (-r * 0.95)).1
    · intro k m hk
      cases k with
      | zero =>
        simp only [List.getElem?_cons_zero, Option.some.injEq] at hk
        subst hk
        simp [update_from_root]
      | succ k =>
        simp only [List.getElem?_cons_succ] at hk
        have h2 := (ih (-r * 0.95)).2.1 k m hk
        have heq : ((-0.95 : ℚ)) ^ k * (-r * 0.95) = ((-0.95 : ℚ)) ^ (k + 1) * r := by
          ring
        rw [heq] at h2
        simpa [update_from_root] using h2
    · show update_from_root_order rest (-r * 0.95) ++ [r] = _
      rw [(ih (-r * 0.95)).2.2]
      have hf : ∀ k ∈ List.range rest.length,
          ((-0.95 : ℚ)) ^ k * (-r * 0.95) =
            ((fun k => ((-0.95 : ℚ)) ^ k * r) ∘ Nat.succ) k := by
        intro k _
        simp only [Function.comp_apply, Nat.succ_eq_add_one, pow_succ]
        ring
      rw [List.map_congr_left hf]
      simp only [List.length_cons, List.range_succ_eq_map, List.map_cons,
        List.map_map, List.reverse_cons, Function.comp_apply, pow_zero, one_mul]

/-- Witness for C2: a concrete three-node chain with result 1; the node two
levels above the starting node records `(-0.95)^2 * 1`. -/
theorem update_from_root_spec_witness :
    ([MCTSNode.mk true 3 (1/2) 0 1 false [], MCTSNode.mk true 1 0 0 1 true [],
        MCTSNode.mk false 5 (1/4) 0 1 false []][2]? =
      some (MCTSNode.mk false 5 (1/4) 0 1 false [])) ∧
    (update_from_root
        [MCTSNode.mk true 3 (1/2) 0 1 false [], MCTSNode.mk true 1 0 0 1 true [],
          MCTSNode.mk false 5 (1/4) 0 1 false []] 1)[2]? =
      some ((MCTSNode.mk false 5 (1/4) 0 1 false []).update (((-0.95 : ℚ)) ^ 2 * 1)) := by
  refine ⟨rfl, ?_⟩
  exact (update_from_root_spec
    [MCTSNode.mk true 3 (1/2) 0 1 false [], MCTSNode.mk true 1 0 0 1 true [],
      MCTSNode.mk false 5 (1/4) 0 1 false []] 1).2.1 2
    (MCTSNode.mk false 5 (1/4) 0 1 false []) rfl

/-! ## C3: re-rooting `updateWithMove` -/

theorem setParentNull_nVisits (n : MCTSNode) : n.setParentNull.nVisits = n.nVisits := by
  cases n; rfl

theorem setParentNull_quality (n : MCTSNode) : n.setParentNull.quality = n.quality := by
  cases n; rfl

theorem setParentNull_children (n : MCTSNode) : n.setParentNull.children = n.children := by
  cases n; rfl

theorem setParentNull_isRoot (n : MCTSNode) : n.setParentNull.isRoot = true := by
  cases n; rfl

/-- C3: `updateWithMove` on an action with an existing child makes that child
(with cleared parent reference) the new root, preserving its visit count,
quality and subtree, and the new root satisfies `isRoot`; on an action with no
existing child it installs a fresh root with zero visits (also satisfying
`isRoot`).  In both cases the action is applied to the authoritative board
state exactly as `plays` applies it. -/
theorem updateWithMove_spec (t : MCTS) (action : action2D) :
    (∀ child, List.lookup action t.root.children = some child →
      (t.updateWithMove action).root = child.setParentNull ∧
      (t.updateWithMove action).root.nVisits = child.nVisits ∧
      (t.updateWithMove action).root.quality = child.quality ∧
      (t.updateWithMove action).root.children = child.children ∧
      (t.updateWithMove action).root.isRoot = true ∧
      (t.updateWithMove action).state = (t.state.plays action).2) ∧
    (List.lookup action t.root.children = none →
      (t.updateWithMove action).root.nVisits = 0 ∧
      (t.updateWithMove action).root.isRoot = true ∧
      (t.updateWithMove action).state = (t.state.plays action).2) := by
  constructor
  · intro child hc
    simp [MCTS.updateWithMove, hc, setParentNull_nVisits, setParentNull_quality,
      setParentNull_children, setParentNull_isRoot]
  · intro hc
    simp [MCTS.updateWithMove, hc, MCTSNode.nVisits, MCTSNode.isRoot, MCTSNode.hasParent]

/-- Witness for C3: a concrete tree whose root has exactly one child under
`(3,4)` with 7 visits; re-rooting on `(3,4)` transplants it (7 visits kept,
root flag set), while re-rooting on the absent action `(5,5)` installs a fresh
zero-visit root. -/
theorem updateWithMove_spec_witness :
    (List.lookup (⟨3, 4⟩ : action2D)
        (MCTSNode.mk false 2 0 0 1 false
          [(⟨3, 4⟩, MCTSNode.mk true 7 (1/3) 0 2 true [])]).children =
      some (MCTSNode.mk true 7 (1/3) 0 2 true [])) ∧
    ((MCTS.mk (MCTSNode.mk false 2 0 0 1 false
        [(⟨3, 4⟩, MCTSNode.mk true 7 (1/3) 0 2 true [])]) 0 1000 GameState.init 0).updateWithMove
        ⟨3, 4⟩).root.nVisits = 7 ∧
    ((MCTS.mk (MCTSNode.mk false 2 0 0 1 false
        [(⟨3, 4⟩, MCTSNode.mk true 7 (1/3) 0 2 true [])]) 0 1000 GameState.init 0).updateWithMove
        ⟨3, 4⟩).root.isRoot = true ∧
    (List.lookup (⟨5, 5⟩ : action2D)
        (MCTSNode.mk false 2 0 0 1 false
          [(⟨3, 4⟩, MCTSNode.mk true 7 (1/3) 0 2 true [])]).children = none) ∧
    ((MCTS.mk (MCTSNode.mk false 2 0 0 1 false
        [(⟨3, 4⟩, MCTSNode.mk true 7 (1/3) 0 2 true [])]) 0 1000 GameState.init 0).updateWithMove
        ⟨5, 5⟩).root.nVisits = 0 := by
  refine ⟨rfl, ?_, ?_, rfl, ?_⟩
  · exact ((updateWithMove_spec
      (MCTS.mk (MCTSNode.mk false 2 0 0 1 false
        [(⟨3, 4⟩, MCTSNode.mk true 7 (1/3) 0 2 true [])]) 0 1000 GameState.init 0)
      ⟨3, 4⟩).1 (MCTSNode.mk true 7 (1/3) 0 2 true []) rfl).2.1
  · exact ((updateWithMove_spec
      (MCTS.mk (MCTSNode.mk false 2 0 0 1 false
        [(⟨3, 4⟩, MCTSNode.mk true 7 (1/3) 0 2 true [])]) 0 1000 GameState.init 0)
      ⟨3, 4⟩).1 (MCTSNode.mk true 7 (1/3) 0 2 true []) rfl).2.2.2.2.1
  · exact ((updateWithMove_spec
      (MCTS.mk (MCTSNode.mk false 2 0 0 1 false
        [(⟨3, 4⟩, MCTSNode.mk true 7 (1/3) 0 2 true [])]) 0 1000 GameState.init 0)
      ⟨5, 5⟩).2 rfl).1

/-! ## C10: degenerate result of the final selection -/

/-- C10: when the root has no children, the final-mode selection performed by
`getNextMove` after the search loop returns the end iterator and the function
returns the degenerate action `(0,0)`. -/
theorem getNextMoveFinal_no_children (root : MCTSNode) (xplorCoeff : ℝ)
    (h : root.isLeaf = true) :
    getNextMoveFinal root xplorCoeff = ⟨0, 0⟩ := by
  have hc : root.children = [] := by
    have := h
    unfold MCTSNode.isLeaf at this
    simpa using this
  unfold getNextMoveFinal MCTSNode.select
  rw [hc]

/-- Witness for C10 at a concrete childless root. -/
theorem getNextMoveFinal_no_children_witness :
    (MCTSNode.mk false 0 0 0 1 true []).isLeaf = true ∧
      getNextMoveFinal (MCTSNode.mk false 0 0 0 1 true []) (1/2) = ⟨0, 0⟩ :=
  ⟨rfl, getNextMoveFinal_no_children (MCTSNode.mk false 0 0 0 1 true []) (1/2) rfl⟩

/-! ## C8: monotonicity of the UCT evaluation -/

/-- C8 counterexample: the claim asserts strict decrease in the child's own
visit count for every child whose parent "has been visited at least once", but
with parent visit count exactly 1 the exploration numerator
`sqrt(2 * log 1) = 0` vanishes, so the score is constant in the child's visit
count: at prior weight 1, exploration coefficient 1/2 and quality 0 the score
for 2 own visits is not smaller than for 1 own visit. -/
theorem evaluationUCT_not_strict_at_one_parent_visit :
    (1 : Nat) < 2 ∧
      ¬(evaluationUCT 1 (1/2) 1 2 0 < evaluationUCT 1 (1/2) 1 1 0) := by
  constructor
  · exact Nat.one_lt_two
  · have h : evaluationUCT 1 (1/2) 1 2 0 = evaluationUCT 1 (1/2) 1 1 0 := by
      unfold evaluationUCT
      norm_num
    exact not_lt.mpr (le_of_eq h.symm)

/-- C8 (amended): the UCT evaluation is monotonically non-decreasing in the
child's running quality when its visit count is held fixed (for every parent
visit count), and — provided the prior weight and exploration coefficient are
positive and the parent has been visited at least twice, so that the
exploration numerator is positive — strictly decreasing in the child's own
visit count when its quality is held fixed.  (At exactly one parent visit the
exploration term is identically zero and the score is constant in the visit
count, which is what the counterexample exhibits.) -/
theorem evaluationUCT_monotone (h c : ℝ) (parentVisits n n1 n2 : Nat) (q q1 q2 : ℝ) :
    (q1 ≤ q2 →
      evaluationUCT h c parentVisits n q1 ≤ evaluationUCT h c parentVisits n q2) ∧
    (0 < h → 0 < c → 2 ≤ parentVisits → n1 < n2 →
      evaluationUCT h c parentVisits n2 q < evaluationUCT h c parentVisits n1 q) := by
  constructor
  · intro hq
    unfold evaluationUCT
    exact add_le_add_right hq _
  · intro hh hc hp hn
    unfold evaluationUCT
    have hlog : 0 < Real.log (parentVisits : ℝ) := by
      apply Real.log_pos
      have : (2 : ℝ) ≤ (parentVisits : ℝ) := by exact_mod_cast hp
      linarith
    have hK : 0 < h * c * Real.sqrt (2 * Real.log (parentVisits : ℝ)) := by
      apply mul_pos (mul_pos hh hc)
      exact Real.sqrt_pos.mpr (by linarith)
    have hdenom : (1 : ℝ) + (n1 : ℝ) < 1 + (n2 : ℝ) := by
      have : (n1 : ℝ) < (n2 : ℝ) := by exact_mod_cast hn
      linarith
    have hpos : (0 : ℝ) < 1 + (n1 : ℝ) := by positivity
    have := div_lt_div_of_pos_left hK hpos hdenom
    linarith

/-- Witness for C8 (amended) at prior weight 1, exploration coefficient 1,
parent visits 2: quality monotonicity at qualities 0 ≤ 1, strict visit-count
decrease between 0 and 1 own visits. -/
theorem evaluationUCT_monotone_witness :
    (evaluationUCT 1 1 2 3 0 ≤ evaluationUCT 1 1 2 3 1) ∧
      (evaluationUCT 1 1 2 1 0 < evaluationUCT 1 1 2 0 0) :=
  ⟨(evaluationUCT_monotone 1 1 2 3 0 1 0 0 1).1 (by norm_num),
   (evaluationUCT_monotone 1 1 2 0 0 1 0 0 1).2 (by norm_num) (by norm_num)
     (by norm_num) (by norm_num)⟩

/-! ## C5: invariants of legal move sequences -/

/-- Cells of the scan list are exactly the grid cells. -/
theorem mem_allCells (a : action2D) : a ∈ allCells ↔ inGrid a := by
  unfold allCells inGrid
  rw [List.mem_flatMap]
  constructor
  · rintro ⟨i, hi, hmem⟩
    rw [List.mem_range] at hi
    rw [List.mem_map] at hmem
    obtain ⟨j, hj, hEq⟩ := hmem
    rw [List.mem_range] at hj
    subst hEq
    exact ⟨Int.natCast_nonneg i, by show (i : Int) ≤ 10; omega,
           Int.natCast_nonneg j, by show (j : Int) ≤ 10; omega⟩
  · rintro ⟨h1, h2, h3, h4⟩
    refine ⟨a.actionX.toNat, ?_, ?_⟩
    · rw [List.mem_range]
      omega
    · rw [List.mem_map]
      refine ⟨a.actionY.toNat, by rw [List.mem_range]; omega, ?_⟩
      obtain ⟨x, y⟩ := a
      dsimp only at h1 h2 h3 h4
      rw [action2D.mk.injEq]
      constructor <;> simp <;> omega

theorem allCells_nodup : allCells.Nodup := by
  unfold allCells
  rw [List.nodup_flatMap]
  constructor
  · intro i _
    refine List.Nodup.map ?_ (List.nodup_range 11)
    intro j j' hjj
    simpa using hjj
  · refine List.Pairwise.imp ?_ (List.nodup_range 11)
    intro i i' hne x hx hx'
    simp only [Function.onFun, List.mem_map, List.mem_range] at hx hx'
    obtain ⟨j, _, rfl⟩ := hx
    obtain ⟨j', _, hx'⟩ := hx'
    have : (i' : Int) = (i : Int) := congrArg action2D.actionX hx'
    exact hne (by exact_mod_cast this.symm)

/-- `countP` on a duplicate-free list, for two predicates that agree except at
one list element where the new one flips from false to true, goes up by one. -/
theorem countP_update (l : List action2D) (a : action2D) (f f' : action2D → Bool) :
    l.Nodup → a ∈ l → (∀ b ∈ l, b ≠ a → f' b = f b) → f a = false → f' a = true →
    l.countP f' = l.countP f + 1 := by
  induction l with
  | nil => intro _ ha; cases ha
  | cons b t ih =>
    intro hn ha hag hfa hf'a
    rw [List.countP_cons, List.countP_cons]
    by_cases hba : b = a
    · subst hba
      have hat : b ∉ t := (List.nodup_cons.mp hn).1
      have ht : t.countP f' = t.countP f := by
        apply List.countP_congr
        intro x hx
        have := hag x (List.mem_cons_of_mem _ hx) (fun hxa => hat (hxa ▸ hx))
        simp [this]
      rw [ht, hfa, hf'a]
      simp
    · have hat : a ∈ t := by
        rcases List.mem_cons.mp ha with h | h
        · exact absurd h.symm hba
        · exact h
      have hrec := ih (List.nodup_cons.mp hn).2 hat
        (fun x hx => hag x (List.mem_cons_of_mem _ hx)) hfa hf'a
      rw [hrec, hag b (List.mem_cons_self _ _) hba]
      omega

/-- One legal move (in-bounds, empty target) increments the piece counter and
the number of occupied cells by exactly one. -/
theorem plays_legal_step (g : GameState) (a : action2D) (h : legalMoveB g a = true) :
    ((g.plays a).2).totalPieces = g.totalPieces + 1 ∧
    occupiedCount (g.plays a).2 = occupiedCount g + 1 := by
  have hb : (0 ≤ a.actionX ∧ a.actionX ≤ 10 ∧ 0 ≤ a.actionY ∧ a.actionY ≤ 10) ∧
      g.board a.actionX a.actionY = 0 := by
    unfold legalMoveB at h
    simp only [Bool.and_eq_true, decide_eq_true_eq, beq_iff_eq] at h
    exact h
  obtain ⟨⟨h1, h2, h3, h4⟩, hempty⟩ := hb
  have hcond : 0 ≤ a.actionX ∧ a.actionX < 11 ∧ 0 ≤ a.actionY ∧ a.actionY < 11 := by
    omega
  constructor
  · simp [GameState.plays, hcond]
  · unfold occupiedCount
    simp only [GameState.plays, hcond, and_self, if_true]
    apply countP_update allCells a _ _ allCells_nodup
      ((mem_allCells a).mpr ⟨h1, h2, h3, h4⟩)
    · intro b _ hbne
      have hco : ¬(b.actionX = a.actionX ∧ b.actionY = a.actionY) := by
        rintro ⟨hx, hy⟩
        apply hbne
        cases a
        cases b
        simp_all
      simp [hco]
    · simp [hempty]
    · simp only [and_self, if_true]
      by_cases hpar : g.totalPieces % 2 = 0 <;> simp [hpar]

/-- Applying a legal sequence adds its length to both the piece counter and
the occupied-cell count. -/
theorem applyAll_legal (ms : List action2D) : ∀ g : GameState,
    legalSeqB g ms = true →
    (applyAll g ms).totalPieces = g.totalPieces + ms.length ∧
    occupiedCount (applyAll g ms) = occupiedCount g + ms.length := by
  induction ms with
  | nil => intro g _; exact ⟨by simp [applyAll], by simp [applyAll]⟩
  | cons a as ih =>
    intro g h
    have h' : legalMoveB g a = true ∧ legalSeqB (g.plays a).2 as = true := by
      have : (legalMoveB g a && legalSeqB (g.plays a).2 as) = true := h
      simpa [Bool.and_eq_true] using this
    have step := plays_legal_step g a h'.1
    have rest := ih _ h'.2
    have happ : applyAll g (a :: as) = applyAll (g.plays a).2 as := rfl
    rw [happ, List.length_cons]
    omega

theorem occupiedCount_le (g : GameState) : occupiedCount g ≤ 121 :=
  le_trans (List.countP_le_length _) (by decide)

theorem occupiedCount_init : occupiedCount GameState.init = 0 := by decide

/-- A prefix of a legal sequence is legal. -/
theorem legalSeqB_take (ms : List action2D) : ∀ (g : GameState) (k : Nat),
    legalSeqB g ms = true → legalSeqB g (ms.take k) = true := by
  induction ms with
  | nil => intro g k _; simp [legalSeqB]
  | cons a as ih =>
    intro g k h
    have h' : legalMoveB g a = true ∧ legalSeqB (g.plays a).2 as = true := by
      have : (legalMoveB g a && legalSeqB (g.plays a).2 as) = true := h
      simpa [Bool.and_eq_true] using this
    cases k with
    | zero => rfl
    | succ k =>
      rw [List.take_succ_cons]
      show (legalMoveB g a && legalSeqB (g.plays a).2 (as.take k)) = true
      simp [h'.1, ih _ k h'.2]

/-- C5: applying any sequence of `N` legal moves (in-bounds, empty target) to
a fresh board yields piece count exactly `N`, which stays within `[0,121]`;
the side to move is fully determined by the parity of the piece count (even
count ⇒ red / side A to move, i.e. `redPlaysNext`), and therefore strictly
alternates: after each further legal move of the sequence the side to move
flips. -/
theorem legal_sequence_invariants (ms : List action2D)
    (h : legalSeqB GameState.init ms = true) :
    (applyAll GameState.init ms).totalPieces = ms.length ∧
    ms.length ≤ 121 ∧
    ((applyAll GameState.init ms).redPlaysNext = true ↔ ms.length % 2 = 0) ∧
    (∀ k, k < ms.length →
      (applyAll GameState.init (ms.take (k + 1))).redPlaysNext =
        !(applyAll GameState.init (ms.take k)).redPlaysNext) := by
  have main := applyAll_legal ms GameState.init h
  have hcount : (applyAll GameState.init ms).totalPieces = ms.length := by
    have : GameState.init.totalPieces = 0 := rfl
    omega
  have hocc : occupiedCount (applyAll GameState.init ms) = ms.length := by
    have := occupiedCount_init
    omega
  have hlen : ms.length ≤ 121 := by
    have := occupiedCount_le (applyAll GameState.init ms)
    omega
  refine ⟨hcount, hlen, ?_, ?_⟩
  · unfold GameState.redPlaysNext
    rw [hcount]
    simp
  · intro k hk
    have htk := applyAll_legal (ms.take k) GameState.init (legalSeqB_take ms _ k h)
    have htk1 := applyAll_legal (ms.take (k + 1)) GameState.init
      (legalSeqB_take ms _ (k + 1) h)
    have hlk : (ms.take k).length = k := by
      rw [List.length_take]
      omega
    have hlk1 : (ms.take (k + 1)).length = k + 1 := by
      rw [List.length_take]
      omega
    have hc1 : (applyAll GameState.init (ms.take (k + 1))).totalPieces = k + 1 := by
      have : GameState.init.totalPieces = 0 := rfl
      omega
    have hc0 : (applyAll GameState.init (ms.take k)).totalPieces = k := by
      have : GameState.init.totalPieces = 0 := rfl
      omega
    unfold GameState.redPlaysNext
    rw [hc1, hc0]
    by_cases hpar : k % 2 = 0
    · have : (k + 1) % 2 = 1 := by omega
      simp [hpar, this]
    · have h3 : k % 2 = 1 := by omega
      have : (k + 1) % 2 = 0 := by omega
      simp [h3, this]

/-- Witness for C5 at the concrete legal sequence `[(0,0), (1,1), (0,1)]`. -/
theorem legal_sequence_invariants_witness :
    legalSeqB GameState.init [⟨0, 0⟩, ⟨1, 1⟩, ⟨0, 1⟩] = true ∧
    (applyAll GameState.init [⟨0, 0⟩, ⟨1, 1⟩, ⟨0, 1⟩]).totalPieces = 3 ∧
    ¬((applyAll GameState.init [⟨0, 0⟩, ⟨1, 1⟩, ⟨0, 1⟩]).redPlaysNext = true) := by
  have hseq : legalSeqB GameState.init [⟨0, 0⟩, ⟨1, 1⟩, ⟨0, 1⟩] = true := by decide
  have main := legal_sequence_invariants [⟨0, 0⟩, ⟨1, 1⟩, ⟨0, 1⟩] hseq
  refine ⟨hseq, main.1, ?_⟩
  intro hred
  have h3 := main.2.2.1.mp hred
  have h4 : ([(⟨0, 0⟩ : action2D), ⟨1, 1⟩, ⟨0, 1⟩]).length = 3 := rfl
  rw [h4] at h3
  omega

/-! ## C6: the shrinking candidate window -/

theorem shrinkMargin_le (n : Nat) : shrinkMargin n ≤ 3 := by
  unfold shrinkMargin
  repeat' split
  all_goals omega

/-- C6: outside the forced-opening branch, `outputActionPrior` returns exactly
(without duplicates) the empty cells of the window obtained by excluding a
border of width `shrinkMargin totalPieces` — 3 cells while `totalPieces ≤ 4`,
2 cells through ply 8, 1 cell through ply 12, unrestricted afterwards (the ply
number being the number of pieces already placed). -/
theorem outputActionPrior_window (g : GameState) (forcedFirst : Bool)
    (forcedPlay : action2D) (h : ¬(g.totalPieces = 0 ∧ forcedFirst = true)) :
    ((g.outputActionPrior forcedFirst forcedPlay).map ActionPrior.action).Nodup ∧
    ∀ a : action2D,
      a ∈ (g.outputActionPrior forcedFirst forcedPlay).map ActionPrior.action ↔
        ((shrinkMargin g.totalPieces : Int) ≤ a.actionX ∧
         a.actionX ≤ 10 - (shrinkMargin g.totalPieces : Int) ∧
         (shrinkMargin g.totalPieces : Int) ≤ a.actionY ∧
         a.actionY ≤ 10 - (shrinkMargin g.totalPieces : Int) ∧
         g.board a.actionX a.actionY = 0) := by
  have hr3 := shrinkMargin_le g.totalPieces
  have hlen : shrinkMargin g.totalPieces + (11 - 2 * shrinkMargin g.totalPieces) =
      11 - shrinkMargin g.totalPieces := by omega
  have hact : (g.outputActionPrior forcedFirst forcedPlay).map ActionPrior.action =
      (List.range' (shrinkMargin g.totalPieces)
          (11 - 2 * shrinkMargin g.totalPieces)).flatMap fun (i : Nat) =>
        (List.range' (shrinkMargin g.totalPieces)
            (11 - 2 * shrinkMargin g.totalPieces)).filterMap fun (j : Nat) =>
          if g.board (i : Int) (j : Int) = 0 then some ⟨(i : Int), (j : Int)⟩ else none := by
    unfold GameState.outputActionPrior
    rw [if_neg h, List.map_map]
    simp [Function.comp_def]
  constructor
  · rw [hact, List.nodup_flatMap]
    constructor
    · intro i _
      refine List.Nodup.filterMap ?_ (List.nodup_range' ..)
      intro j j' b hb hb'
      rw [Option.mem_def, Option.ite_none_right_eq_some] at hb hb'
      have heq := (Option.some.inj hb.2).trans (Option.some.inj hb'.2).symm
      rw [action2D.mk.injEq] at heq
      exact_mod_cast heq.2
    · refine List.Pairwise.imp ?_ (List.nodup_range' ..)
      intro i i' hne x hx hx'
      rw [List.mem_filterMap] at hx hx'
      obtain ⟨j, _, hj⟩ := hx
      obtain ⟨j', _, hj'⟩ := hx'
      rw [Option.ite_none_right_eq_some] at hj hj'
      have heq := (Option.some.inj hj.2).trans (Option.some.inj hj'.2).symm
      rw [action2D.mk.injEq] at heq
      exact hne (by exact_mod_cast heq.1)
  · intro a
    rw [hact, List.mem_flatMap]
    constructor
    · rintro ⟨i, hi, hmem⟩
      rw [List.mem_range'_1] at hi
      rw [List.mem_filterMap] at hmem
      obtain ⟨j, hj, hEq⟩ := hmem
      rw [List.mem_range'_1] at hj
      rw [Option.ite_none_right_eq_some] at hEq
      obtain ⟨hb, hSome⟩ := hEq
      have hEq2 := Option.some.inj hSome
      subst hEq2
      refine ⟨?_, ?_, ?_, ?_, hb⟩ <;>
        · dsimp only
          omega
    · rintro ⟨h1, h2, h3, h4, hb⟩
      refine ⟨a.actionX.toNat, ?_, ?_⟩
      · rw [List.mem_range'_1]
        omega
      · rw [List.mem_filterMap]
        refine ⟨a.actionY.toNat, ?_, ?_⟩
        · rw [List.mem_range'_1]
          omega
        · rw [Option.ite_none_right_eq_some]
          have hx : ((a.actionX.toNat : Nat) : Int) = a.actionX := by omega
          have hy : ((a.actionY.toNat : Nat) : Int) = a.actionY := by omega
          rw [hx, hy]
          exact ⟨hb, by cases a; rfl⟩

/-- Witness for C6: the empty board without forcing; the window has margin 3
(`totalPieces = 0 ≤ 4`), so `(3,3)` is a candidate. -/
theorem outputActionPrior_window_witness :
    ¬(GameState.init.totalPieces = 0 ∧ false = true) ∧
    ((⟨3, 3⟩ : action2D) ∈
        (GameState.init.outputActionPrior false ⟨1, 2⟩).map ActionPrior.action ↔
      ((shrinkMargin GameState.init.totalPieces : Int) ≤ 3 ∧
       (3 : Int) ≤ 10 - (shrinkMargin GameState.init.totalPieces : Int) ∧
       (shrinkMargin GameState.init.totalPieces : Int) ≤ 3 ∧
       (3 : Int) ≤ 10 - (shrinkMargin GameState.init.totalPieces : Int) ∧
       GameState.init.board 3 3 = 0)) :=
  ⟨by decide,
   (outputActionPrior_window GameState.init false ⟨1, 2⟩ (by decide)).2 ⟨3, 3⟩⟩

/-! ## C7: the forced opening candidate -/

theorem mem_intLoop (lo hi v : Int) : v ∈ intLoop lo hi ↔ lo ≤ v ∧ v ≤ hi := by
  unfold intLoop
  rw [List.mem_map]
  constructor
  · rintro ⟨k, hk, rfl⟩
    rw [List.mem_range] at hk
    omega
  · rintro ⟨h1, h2⟩
    refine ⟨(v - lo).toNat, ?_, ?_⟩
    · rw [List.mem_range]
      omega
    · omega

/-- On an empty board the bridge and density multipliers never fire, so the
heuristic weight of any candidate is `1.5` inside the central 8×8 sub-board
and `1.0` outside it. -/
theorem heuristicMultiplierFor_empty (g : GameState) (a : action2D)
    (hempty : ∀ i j : Int, 0 ≤ i → i ≤ 10 → 0 ≤ j → j ≤ 10 → g.board i j = 0) :
    heuristicMultiplierFor g a =
      if 2 ≤ a.actionX ∧ a.actionX ≤ 9 ∧ 2 ≤ a.actionY ∧ a.actionY ≤ 9
      then (3 / 2 : ℚ) else 1 := by
  unfold heuristicMultiplierFor computeRangeBound
  have hcells : ∀ c : Int × Int,
      c ∈ (intLoop (max 0 (a.actionY - 1)) (min 10 (a.actionY + 1))).flatMap
          (fun i => (intLoop (max 0 (a.actionX - 1))
            (min 10 (a.actionX + 1))).map fun j => (i, j)) →
      g.board c.1 c.2 = 0 := by
    intro c hc
    rw [List.mem_flatMap] at hc
    obtain ⟨i, hi, hc⟩ := hc
    rw [mem_intLoop] at hi
    rw [List.mem_map] at hc
    obtain ⟨j, hj, rfl⟩ := hc
    rw [mem_intLoop] at hj
    exact hempty i j (by omega) (by omega) (by omega) (by omega)
  have hred : ((intLoop (max 0 (a.actionY - 1)) (min 10 (a.actionY + 1))).flatMap
      (fun i => (intLoop (max 0 (a.actionX - 1))
        (min 10 (a.actionX + 1))).map fun j => (i, j))).countP
        (fun c => g.board c.1 c.2 == 1) = 0 := by
    rw [List.countP_eq_zero]
    intro c hc
    simp [hcells c hc]
  have hblack : ((intLoop (max 0 (a.actionY - 1)) (min 10 (a.actionY + 1))).flatMap
      (fun i => (intLoop (max 0 (a.actionX - 1))
        (min 10 (a.actionX + 1))).map fun j => (i, j))).countP
        (fun c => g.board c.1 c.2 == -1) = 0 := by
    rw [List.countP_eq_zero]
    intro c hc
    simp [hcells c hc]
  simp only [hred, hblack]
  norm_num

/-- C7 counterexample: on the empty board with forcing, the forced action
`(5,5)` lies in the central 8×8 sub-board, so the single returned candidate
carries weight `1.5`, not the claimed neutral `1.0`. -/
theorem outputActionPrior_forced_weight_not_neutral :
    (GameState.init.outputActionPrior true ⟨5, 5⟩).map ActionPrior.probability ≠ [1] := by
  have hmul := heuristicMultiplierFor_empty GameState.init ⟨5, 5⟩
    (fun i j _ _ _ _ => rfl)
  rw [if_pos (by decide)] at hmul
  unfold GameState.outputActionPrior
  rw [if_pos ⟨rfl, rfl⟩, List.map_singleton, List.map_singleton]
  rw [hmul]
  intro hcontra
  have : (3 / 2 : ℚ) = 1 := List.head_eq_of_cons_eq hcontra
  norm_num at this

/-- C7 (amended): on an empty board with forcing requested,
`outputActionPrior` returns exactly one candidate, the forced action `f`; its
weight is `1.0` when `f` lies outside the central 8×8 sub-board
(rows and columns `2..9`) and `1.5` (the central-region multiplier) when it
lies inside. -/
theorem outputActionPrior_forced (g : GameState) (forcedPlay : action2D)
    (hempty : ∀ i j : Int, 0 ≤ i → i ≤ 10 → 0 ≤ j → j ≤ 10 → g.board i j = 0)
    (hp : g.totalPieces = 0) :
    g.outputActionPrior true forcedPlay =
      [⟨forcedPlay,
        if 2 ≤ forcedPlay.actionX ∧ forcedPlay.actionX ≤ 9 ∧
            2 ≤ forcedPlay.actionY ∧ forcedPlay.actionY ≤ 9
        then (3 / 2 : ℚ) else 1⟩] := by
  unfold GameState.outputActionPrior
  rw [if_pos ⟨hp, rfl⟩, List.map_singleton,
    heuristicMultiplierFor_empty g forcedPlay hempty]

/-- Witness for C7 (amended) at the code's default forced action `(1,2)` on
the fresh board: the single candidate is `(1,2)` with weight `1.0` (it lies
outside the central region). -/
theorem outputActionPrior_forced_witness :
    GameState.init.outputActionPrior true ⟨1, 2⟩ = [⟨⟨1, 2⟩, 1⟩] := by
  have h := outputActionPrior_forced GameState.init ⟨1, 2⟩
    (fun i j _ _ _ _ => rfl) rfl
  rw [if_neg (by decide)] at h
  exact h

/-! ## C1: correctness of the connectivity win check

The development relates `oneSideTest` (stone collection + edge split + `dfs`)
to the specification's notion `isChain` of a contiguous hex-adjacent chain of
one side's stones joining the side's two edges. -/

/-- Membership in the collected stone list of `oneSideTest`. -/
theorem mem_pieceLocsOf (g : GameState) (isRed : Bool) (a : action2D) :
    a ∈ pieceLocsOf g isRed ↔
      inGrid a ∧ g.board a.actionX a.actionY = (if isRed then 1 else -1) := by
  unfold pieceLocsOf inGrid
  rw [List.mem_flatMap]
  constructor
  · rintro ⟨i, hi, hmem⟩
    rw [List.mem_range] at hi
    rw [List.mem_filterMap] at hmem
    obtain ⟨j, hj, hEq⟩ := hmem
    rw [List.mem_range] at hj
    rw [Option.ite_none_right_eq_some] at hEq
    obtain ⟨hb, hSome⟩ := hEq
    have hEq2 := Option.some.inj hSome
    subst hEq2
    exact ⟨⟨Int.natCast_nonneg i, by show (i : Int) ≤ 10; omega,
      Int.natCast_nonneg j, by show (j : Int) ≤ 10; omega⟩, hb⟩
  · rintro ⟨⟨h1, h2, h3, h4⟩, hb⟩
    refine ⟨a.actionX.toNat, ?_, ?_⟩
    · rw [List.mem_range]
      omega
    · rw [List.mem_filterMap]
      refine ⟨a.actionY.toNat, by rw [List.mem_range]; omega, ?_⟩
      rw [Option.ite_none_right_eq_some]
      have hx : ((a.actionX.toNat : Nat) : Int) = a.actionX := by omega
      have hy : ((a.actionY.toNat : Nat) : Int) = a.actionY := by omega
      rw [hx, hy]
      exact ⟨hb, by cases a; rfl⟩

/-- The collected stone list has no duplicates (the scan visits each cell
once). -/
theorem pieceLocsOf_nodup (g : GameState) (isRed : Bool) :
    (pieceLocsOf g isRed).Nodup := by
  unfold pieceLocsOf
  rw [List.nodup_flatMap]
  constructor
  · intro i _
    refine List.Nodup.filterMap ?_ (List.nodup_range 11)
    intro j j' b hb hb'
    rw [Option.mem_def, Option.ite_none_right_eq_some] at hb hb'
    have heq := (Option.some.inj hb.2).trans (Option.some.inj hb'.2).symm
    rw [action2D.mk.injEq] at heq
    exact_mod_cast heq.2
  · refine List.Pairwise.imp ?_ (List.nodup_range 11)
    intro i i' hne x hx hx'
    rw [List.mem_filterMap] at hx hx'
    obtain ⟨j, _, hj⟩ := hx
    obtain ⟨j', _, hj'⟩ := hx'
    rw [Option.ite_none_right_eq_some] at hj hj'
    have heq := (Option.some.inj hj.2).trans (Option.some.inj hj'.2).symm
    rw [action2D.mk.injEq] at heq
    exact hne (by exact_mod_cast heq.1)

/-- The starting-stone predicate tests exactly `edgeCoord = 0`. -/
theorem isStartingLoc_iff (isRed : Bool) (a : action2D) :
    isStartingLoc isRed a = true ↔ edgeCoord isRed a = 0 := by
  cases isRed <;> simp [isStartingLoc, edgeCoord]

/-- Every probed neighbour candidate is a hex neighbour. -/
theorem linkCands_sub_hexNeighbors (a b : action2D) (h : b ∈ linkCands a) :
    hexAdj a b := by
  unfold linkCands at h
  unfold hexAdj hexNeighbors
  simp only [List.mem_append] at h
  rcases h with ((((h | h) | h) | h) | h) | h <;>
    · split at h <;> simp_all

/-- Conversely a hex neighbour that lies on the grid passes its boundary
guard, hence is probed. -/
theorem hexAdj_mem_linkCands (a b : action2D) (hadj : hexAdj a b)
    (hb : inGrid b) : b ∈ linkCands a := by
  unfold hexAdj hexNeighbors at hadj
  unfold inGrid at hb
  unfold linkCands
  simp only [List.mem_append, List.mem_singleton]
  obtain ⟨hb1, hb2, hb3, hb4⟩ := hb
  simp only [List.mem_cons, List.mem_singleton, List.not_mem_nil, or_false] at hadj
  rcases hadj with h | h | h | h | h | h
  all_goals subst h
  · left; left; left; left; left
    rw [if_pos (by dsimp only at hb3 ⊢; omega)]
    simp
  · left; left; left; left; right
    rw [if_pos (by dsimp only at hb4 ⊢; omega)]
    simp
  · left; left; left; right
    rw [if_pos (by dsimp only at hb1 ⊢; omega)]
    simp
  · left; left; right
    rw [if_pos (by dsimp only at hb1 hb4 ⊢; omega)]
    simp
  · left; right
    rw [if_pos (by dsimp only at hb2 ⊢; omega)]
    simp
  · right
    rw [if_pos (by dsimp only at hb2 hb3 ⊢; omega)]
    simp

/-- A hex step changes each coordinate, hence the edge coordinate, by at most
one. -/
theorem hexAdj_edgeCoord_step (isRed : Bool) (a b : action2D) (h : hexAdj a b) :
    (edgeCoord isRed b - edgeCoord isRed a).natAbs ≤ 1 := by
  unfold hexAdj hexNeighbors at h
  simp only [List.mem_cons, List.mem_singleton, List.not_mem_nil, or_false] at h
  cases isRed <;>
    · unfold edgeCoord
      rcases h with h | h | h | h | h | h <;> subst h <;> simp

/-- Discrete intermediate value property: a list of integers whose consecutive
steps have absolute value at most one visits every value between its head and
its last element. -/
theorem chain_int_hits (l : List Int) (k : Int) :
    List.Chain' (fun u v => (v - u).natAbs ≤ 1) l →
    ∀ h0 hl : Int, l.head? = some h0 → l.getLast? = some hl →
    h0 ≤ k → k ≤ hl → k ∈ l := by
  induction l with
  | nil => intro _ h0 hl hh; cases hh
  | cons a t ih =>
    intro hchain h0 hl hh hlast hk1 hk2
    have ha : a = h0 := Option.some.inj hh
    subst ha
    cases t with
    | nil =>
      have : a = hl := Option.some.inj hlast
      subst this
      have : k = a := le_antisymm hk2 hk1
      subst this
      exact List.mem_singleton_self k
    | cons b t' =>
      by_cases hka : k = a
      · subst hka
        exact List.mem_cons_self k _
      · have hstep : (b - a).natAbs ≤ 1 := (List.chain'_cons.mp hchain).1
        have hbk : b ≤ k := by omega
        have hrec := ih (List.chain'_cons.mp hchain).2 b hl rfl
          (by rw [← hlast]; rfl) hbk hk2
        exact List.mem_cons_of_mem a hrec

/-- Splitting a list at the last element satisfying a decidable predicate. -/
theorem exists_last_split {α : Type} (p : α → Prop) [DecidablePred p]
    (l : List α) (h : ∃ a ∈ l, p a) :
    ∃ (l₁ : List α) (a : α) (l₂ : List α),
      l = l₁ ++ a :: l₂ ∧ p a ∧ ∀ b ∈ l₂, ¬ p b := by
  induction l with
  | nil => obtain ⟨a, ha, _⟩ := h; cases ha
  | cons c t ih =>
    by_cases ht : ∃ a ∈ t, p a
    · obtain ⟨l₁, a, l₂, hsplit, hpa, hrest⟩ := ih ht
      exact ⟨c :: l₁, a, l₂, by rw [hsplit]; rfl, hpa, hrest⟩
    · have hpc : p c := by
        obtain ⟨a, ha, hpa⟩ := h
        rcases List.mem_cons.mp ha with rfl | ha'
        · exact hpa
        · exact absurd ⟨a, ha', hpa⟩ ht
      refine ⟨[], c, t, rfl, hpc, ?_⟩
      intro b hb hpb
      exact ht ⟨b, hb, hpb⟩

/-- Transporting `Chain'` along an implication that only needs to hold on the
list's elements. -/
theorem chain'_imp_of_mem {R S : action2D → action2D → Prop} :
    ∀ l : List action2D, (∀ a ∈ l, ∀ b ∈ l, R a b → S a b) →
      List.Chain' R l → List.Chain' S l := by
  intro l
  induction l with
  | nil => intro _ _; exact List.chain'_nil
  | cons a t ih =>
    intro himp hchain
    cases t with
    | nil => exact List.chain'_singleton a
    | cons b t' =>
      rw [List.chain'_cons] at hchain ⊢
      refine ⟨himp a (List.mem_cons_self _ _) b
        (List.mem_cons_of_mem _ (List.mem_cons_self _ _)) hchain.1, ?_⟩
      exact ih (fun x hx y hy => himp x (List.mem_cons_of_mem _ hx)
        y (List.mem_cons_of_mem _ hy)) hchain.2

/-- Any nonempty `Chain'`-walk contains a duplicate-free `Chain'`-walk with
the same first and last elements, drawn from the same cells (repeats are cut
out by shortcutting at the second visit). -/
theorem chain_dedup (R : action2D → action2D → Prop) :
    ∀ (n : Nat) (p : List action2D), p.length ≤ n → p ≠ [] → List.Chain' R p →
    ∃ q : List action2D, q ≠ [] ∧ q.head? = p.head? ∧ q.getLast? = p.getLast? ∧
      List.Chain' R q ∧ (∀ a ∈ q, a ∈ p) ∧ q.Nodup := by
  intro n
  induction n with
  | zero =>
    intro p hlen hne _
    rcases p with _ | ⟨a, rest⟩
    · exact absurd rfl hne
    · simp at hlen
  | succ n ih =>
    intro p hlen hne hchain
    rcases p with _ | ⟨a, rest⟩
    · exact absurd rfl hne
    rcases hr : rest with _ | ⟨b, t⟩
    · exact ⟨[a], by simp, rfl, rfl, List.chain'_singleton a, by simp,
        List.nodup_singleton a⟩
    subst hr
    by_cases ha : a ∈ b :: t
    · obtain ⟨s, t2, hsplit⟩ := List.append_of_mem ha
      have hsuffix : a :: b :: t = (a :: s) ++ (a :: t2) := by
        rw [hsplit]
        rfl
      have hchain2 : List.Chain' R (a :: t2) :=
        (List.chain'_append.mp (hsuffix ▸ hchain)).2.1
      have hlen2 : (a :: t2).length ≤ n := by
        have h1 : (a :: b :: t).length = (a :: s).length + (a :: t2).length := by
          rw [hsuffix, List.length_append]
        simp only [List.length_cons] at h1 hlen ⊢
        omega
      obtain ⟨q, hqne, hqh, hql, hqc, hqs, hqn⟩ := ih (a :: t2) hlen2 (by simp) hchain2
      refine ⟨q, hqne, ?_, ?_, hqc, ?_, hqn⟩
      · rw [hqh]
        rfl
      · rw [hql, hsuffix]
        exact (List.getLast?_append_of_ne_nil _ (by simp)).symm
      · intro x hx
        rw [hsuffix]
        exact List.mem_append_right _ (hqs x hx)
    · obtain ⟨q, hqne, hqh, hql, hqc, hqs, hqn⟩ := ih (b :: t)
        (by simp only [List.length_cons] at hlen ⊢; omega) (by simp) hchain.tail
      refine ⟨a :: q, by simp, rfl, ?_, ?_, ?_, ?_⟩
      · have h1 : a :: q = [a] ++ q := rfl
        have h2 : a :: b :: t = [a] ++ b :: t := rfl
        rw [h1, h2, List.getLast?_append_of_ne_nil _ hqne,
          List.getLast?_append_of_ne_nil _ (by simp)]
        exact hql
      · rw [List.chain'_cons']
        refine ⟨?_, hqc⟩
        intro y hy
        have hstep := (List.chain'_cons'.mp hchain).1
        rw [hqh] at hy
        exact hstep y hy
      · intro x hx
        rcases List.mem_cons.mp hx with rfl | hx'
        · exact List.mem_cons_self _ _
        · exact List.mem_cons_of_mem _ (hqs x hx')
      · rw [List.nodup_cons]
        exact ⟨fun haq => ha (hqs a haq), hqn⟩

/-- Reachability is monotone in the pool. -/
theorem ReachP_mono (isRed : Bool) (pool pool' : List action2D) (x : action2D)
    (hsub : ∀ a ∈ pool, a ∈ pool') (h : ReachP isRed pool x) :
    ReachP isRed pool' x := by
  obtain ⟨p, h1, h2, h3, h4, h5⟩ := h
  exact ⟨p, h1, h2, fun a ha => hsub a (h3 a ha), h4, h5⟩

/-- Path surgery: when the cells `S` are removed from the pool, a reachability
path either survives unchanged or can be restarted at its last visit to `S`
(whose suffix avoids `S` entirely). -/
theorem ReachP_surgery (isRed : Bool) (pool pool' S : List action2D)
    (x : action2D) (hmem : ∀ a, a ∈ pool' ↔ a ∈ pool ∧ a ∉ S)
    (h : ReachP isRed pool x) :
    ∃ z, (z = x ∨ z ∈ S) ∧ ReachP isRed pool' z := by
  obtain ⟨p, hhead, hchain, htail, hnodup, htarget⟩ := h
  by_cases hS : ∃ a ∈ p.tail, a ∈ S
  · obtain ⟨t₁, w, t₂, hsplit, hwS, ht₂⟩ := exists_last_split (· ∈ S) p.tail hS
    cases p with
    | nil => cases hhead
    | cons x' rest =>
      have hx : x' = x := Option.some.inj hhead
      subst hx
      have hrest : rest = t₁ ++ w :: t₂ := hsplit
      have hdecomp : x' :: rest = (x' :: t₁) ++ (w :: t₂) := by
        rw [hrest]
        rfl
      refine ⟨w, Or.inr hwS, ⟨w :: t₂, rfl, ?_, ?_, ?_, ?_⟩⟩
      · exact (List.chain'_append.mp (hdecomp ▸ hchain)).2.1
      · intro a ha
        have ha2 : a ∈ t₂ := ha
        rw [hmem]
        refine ⟨htail a ?_, ht₂ a ha2⟩
        show a ∈ rest
        rw [hrest]
        exact List.mem_append_right _ (List.mem_cons_of_mem _ ha2)
      · show t₂.Nodup
        have hsub : List.Sublist t₂ rest := by
          rw [hrest]
          exact (List.sublist_cons_self w t₂).trans (List.sublist_append_right t₁ (w :: t₂))
        exact hnodup.sublist hsub
      · rw [hdecomp, List.map_append,
          List.getLast?_append_of_ne_nil _ (by simp)] at htarget
        exact htarget
  · push_neg at hS
    refine ⟨x, Or.inl rfl, ⟨p, hhead, hchain, ?_, hnodup, htarget⟩⟩
    intro a ha
    rw [hmem]
    exact ⟨htail a ha, hS a ha⟩

/-- Soundness of the reachability search: if `dfs` reports success on a
duplicate-free pool, some frontier cell reaches the target edge through the
pool. -/
theorem dfs_sound (isRed : Bool) : ∀ (n : Nat) (frontier pool : List action2D),
    frontier.length + pool.length ≤ n → pool.Nodup →
    dfs frontier pool isRed = true → ∃ x ∈ frontier, ReachP isRed pool x := by
  intro n
  induction n with
  | zero =>
    intro frontier pool hlen _ hdfs
    have hfr : frontier = [] := by
      cases frontier with
      | nil => rfl
      | cons a t => simp at hlen
    subst hfr
    rw [dfs] at hdfs
    simp at hdfs
  | succ n ih =>
    intro frontier pool hlen hnd hdfs
    by_cases hfr : frontier = []
    · subst hfr
      rw [dfs] at hdfs
      simp at hdfs
    · rw [dfs, dif_neg hfr] at hdfs
      by_cases hc1 : (isRed && ((frontier.getLast hfr).actionX == 10)) = true
      · rw [if_pos hc1] at hdfs
        rw [Bool.and_eq_true, beq_iff_eq] at hc1
        refine ⟨frontier.getLast hfr, List.getLast_mem hfr,
          ⟨[frontier.getLast hfr], rfl, List.chain'_singleton _, by simp,
            List.nodup_nil, ?_⟩⟩
        simp only [List.map_cons, List.map_nil, List.getLast?_singleton,
          Option.some.injEq]
        unfold edgeCoord
        rw [hc1.1, if_pos rfl]
        exact hc1.2
      · rw [if_neg hc1] at hdfs
        by_cases hc2 : (!isRed && ((frontier.getLast hfr).actionY == 10)) = true
        · rw [if_pos hc2] at hdfs
          rw [Bool.and_eq_true, Bool.not_eq_true', beq_iff_eq] at hc2
          refine ⟨frontier.getLast hfr, List.getLast_mem hfr,
            ⟨[frontier.getLast hfr], rfl, List.chain'_singleton _, by simp,
              List.nodup_nil, ?_⟩⟩
          simp only [List.map_cons, List.map_nil, List.getLast?_singleton,
            Option.some.injEq]
          unfold edgeCoord
          rw [hc2.1]
          simp only [Bool.false_eq_true, if_false]
          exact hc2.2
        · rw [if_neg hc2] at hdfs
          have hflen := findLinkedNodes_length (frontier.getLast hfr) pool
          have hfl : 1 ≤ frontier.length := List.length_pos.mpr hfr
          have hlen2 : (frontier.dropLast ++
              (findLinkedNodes (frontier.getLast hfr) pool).1).length +
              (findLinkedNodes (frontier.getLast hfr) pool).2.length ≤ n := by
            simp only [List.length_append, List.length_dropLast]
            omega
          have hnd2 := (findLinkedNodes_nodup_disj (frontier.getLast hfr) pool hnd).1
          obtain ⟨x, hx, hreach⟩ := ih _ _ hlen2 hnd2 hdfs
          rcases List.mem_append.mp hx with hx1 | hx2
          · refine ⟨x, (List.dropLast_sublist frontier).subset hx1, ?_⟩
            exact ReachP_mono isRed _ pool x
              (fun a ha => findLinkedNodes_snd_subset _ pool a ha) hreach
          · have hx3 := (findLinkedNodes_fst_mem (frontier.getLast hfr) pool x).mp hx2
            obtain ⟨p, hhead, hchain, htail, hnodup, htarget⟩ := hreach
            cases p with
            | nil => cases hhead
            | cons x' rest =>
              have hx' : x' = x := Option.some.inj hhead
              subst hx'
              refine ⟨frontier.getLast hfr, List.getLast_mem hfr,
                ⟨frontier.getLast hfr :: x' :: rest, rfl, ?_, ?_, ?_, ?_⟩⟩
              · rw [List.chain'_cons]
                exact ⟨hx3.2, hchain⟩
              · intro a ha
                rcases List.mem_cons.mp ha with rfl | ha'
                · exact hx3.1
                · exact findLinkedNodes_snd_subset _ pool a (htail a ha')
              · show (x' :: rest).Nodup
                rw [List.nodup_cons]
                refine ⟨?_, hnodup⟩
                intro hxrest
                exact (findLinkedNodes_nodup_disj (frontier.getLast hfr) pool hnd).2
                  x' hx2 (htail x' hxrest)
              · have hpne : (x' :: rest).map (edgeCoord isRed) ≠ [] := by simp
                rw [List.map_cons]
                rw [show edgeCoord isRed (frontier.getLast hfr) ::
                    (x' :: rest).map (edgeCoord isRed) =
                  [edgeCoord isRed (frontier.getLast hfr)] ++
                    (x' :: rest).map (edgeCoord isRed) from rfl]
                rw [List.getLast?_append_of_ne_nil _ hpne]
                exact htarget

/-- Completeness of the reachability search: on a duplicate-free pool, if some
frontier cell reaches the target edge through the pool, `dfs` reports
success. -/
theorem dfs_complete (isRed : Bool) : ∀ (n : Nat) (frontier pool : List action2D),
    frontier.length + pool.length ≤ n → pool.Nodup →
    (∃ x ∈ frontier, ReachP isRed pool x) → dfs frontier pool isRed = true := by
  intro n
  induction n with
  | zero =>
    intro frontier pool hlen _ hex
    obtain ⟨x, hx, _⟩ := hex
    cases frontier with
    | nil => cases hx
    | cons a t => simp at hlen
  | succ n ih =>
    intro frontier pool hlen hnd hex
    obtain ⟨x, hx, hreach⟩ := hex
    have hfr : frontier ≠ [] := List.ne_nil_of_mem hx
    rw [dfs, dif_neg hfr]
    by_cases hc1 : (isRed && ((frontier.getLast hfr).actionX == 10)) = true
    · rw [if_pos hc1]
    · rw [if_neg hc1]
      by_cases hc2 : (!isRed && ((frontier.getLast hfr).actionY == 10)) = true
      · rw [if_pos hc2]
      · rw [if_neg hc2]
        have hnode_nt : edgeCoord isRed (frontier.getLast hfr) ≠ 10 := by
          intro hcon
          unfold edgeCoord at hcon
          rcases Bool.eq_false_or_eq_true isRed with hR | hR
          · rw [hR] at hcon hc1
            simp at hcon hc1
            exact hc1 hcon
          · rw [hR] at hcon hc2
            simp at hcon hc2
            exact hc2 hcon
        have hflen := findLinkedNodes_length (frontier.getLast hfr) pool
        have hfl : 1 ≤ frontier.length := List.length_pos.mpr hfr
        have hmemchar : ∀ a,
            a ∈ (findLinkedNodes (frontier.getLast hfr) pool).2 ↔
            a ∈ pool ∧ a ∉ (findLinkedNodes (frontier.getLast hfr) pool).1 := by
          intro a
          constructor
          · intro h2
            exact ⟨findLinkedNodes_snd_subset _ _ _ h2, fun h1 =>
              (findLinkedNodes_nodup_disj _ _ hnd).2 a h1 h2⟩
          · rintro ⟨hpool, hnot1⟩
            rcases findLinkedNodes_cover _ pool a hpool with h1 | h2
            · exact absurd h1 hnot1
            · exact h2
        apply ih
        · simp only [List.length_append, List.length_dropLast]
          omega
        · exact (findLinkedNodes_nodup_disj (frontier.getLast hfr) pool hnd).1
        · have hx2 : x ∈ frontier.dropLast ∨ x = frontier.getLast hfr := by
            rw [← List.dropLast_append_getLast hfr] at hx
            rcases List.mem_append.mp hx with h | h
            · exact Or.inl h
            · exact Or.inr (List.mem_singleton.mp h)
          rcases hx2 with hxd | hxe
          · obtain ⟨z, hz, hzreach⟩ := ReachP_surgery isRed pool
              (findLinkedNodes (frontier.getLast hfr) pool).2
              (findLinkedNodes (frontier.getLast hfr) pool).1 x hmemchar hreach
            refine ⟨z, ?_, hzreach⟩
            rcases hz with rfl | hzS
            · exact List.mem_append_left _ hxd
            · exact List.mem_append_right _ hzS
          · subst hxe
            obtain ⟨p, hhead, hchain, htail, hnodup, htarget⟩ := hreach
            cases p with
            | nil => cases hhead
            | cons x0 rest =>
              have hx0 : x0 = frontier.getLast hfr := Option.some.inj hhead
              subst hx0
              set node := frontier.getLast hfr with hnodedef
              cases rest with
              | nil =>
                exfalso
                simp only [List.map_cons, List.map_nil, List.getLast?_singleton,
                  Option.some.injEq] at htarget
                exact hnode_nt htarget
              | cons y rest' =>
                have hadj : y ∈ linkCands node := (List.chain'_cons.mp hchain).1
                have hypool : y ∈ pool := htail y (List.mem_cons_self _ _)
                have hy1 : y ∈ (findLinkedNodes node pool).1 :=
                  (findLinkedNodes_fst_mem node pool y).mpr ⟨hypool, hadj⟩
                have htargety : ((y :: rest').map (edgeCoord isRed)).getLast? =
                    some 10 := by
                  rw [List.map_cons,
                    show edgeCoord isRed node :: (y :: rest').map (edgeCoord isRed) =
                      [edgeCoord isRed node] ++ (y :: rest').map (edgeCoord isRed)
                      from rfl,
                    List.getLast?_append_of_ne_nil _ (by simp)] at htarget
                  exact htarget
                have hreachy : ReachP isRed pool y :=
                  ⟨y :: rest', rfl, (List.chain'_cons.mp hchain).2,
                    fun a ha => htail a (List.mem_cons_of_mem _ ha),
                    (List.nodup_cons.mp hnodup).2, htargety⟩
                obtain ⟨z, hz, hzreach⟩ := ReachP_surgery isRed pool
                  (findLinkedNodes node pool).2 (findLinkedNodes node pool).1
                  y hmemchar hreachy
                refine ⟨z, ?_, hzreach⟩
                rcases hz with rfl | hzS
                · exact List.mem_append_right _ hy1
                · exact List.mem_append_right _ hzS

/-- `oneSideTest` unfolded (the `let` bindings expanded). -/
theorem oneSideTest_eq (g : GameState) (isRed : Bool) :
    g.oneSideTest isRed =
      if (pieceLocsOf g isRed).length < 11 then false
      else if ((pieceLocsOf g isRed).filter fun a => isStartingLoc isRed a).length = 0
        then false
      else dfs ((pieceLocsOf g isRed).filter fun a => isStartingLoc isRed a)
        ((pieceLocsOf g isRed).filter fun a => !isStartingLoc isRed a) isRed := rfl

/-- Soundness half of C1: a reported win exhibits a chain. -/
theorem chain_of_oneSideTest (g : GameState) (isRed : Bool)
    (h : g.oneSideTest isRed = true) : ∃ p, isChain g isRed p := by
  rw [oneSideTest_eq] at h
  by_cases h11 : (pieceLocsOf g isRed).length < 11
  · rw [if_pos h11] at h
    cases h
  · rw [if_neg h11] at h
    by_cases hsl :
        ((pieceLocsOf g isRed).filter fun a => isStartingLoc isRed a).length = 0
    · rw [if_pos hsl] at h
      cases h
    · rw [if_neg hsl] at h
      have hnd : ((pieceLocsOf g isRed).filter fun a => !isStartingLoc isRed a).Nodup :=
        (pieceLocsOf_nodup g isRed).filter _
      obtain ⟨x, hx, hreach⟩ := dfs_sound isRed _ _ _ le_rfl hnd h
      obtain ⟨p, hhead, hchain, htail, hnodup, htarget⟩ := hreach
      have hploc : ∀ a ∈ p, a ∈ pieceLocsOf g isRed := by
        intro a ha
        cases p with
        | nil => cases hhead
        | cons x0 rest =>
          have hx0 : x0 = x := Option.some.inj hhead
          rcases List.mem_cons.mp ha with rfl | ha'
          · rw [hx0]
            exact (List.mem_filter.mp hx).1
          · exact (List.mem_filter.mp (htail a ha')).1
      refine ⟨p, ?_, ?_, ?_, ?_, htarget⟩
      · cases p with
        | nil => cases hhead
        | cons x0 rest => simp
      · intro a ha
        exact (mem_pieceLocsOf g isRed a).mp (hploc a ha)
      · exact List.Chain'.imp
          (fun a b hab => linkCands_sub_hexNeighbors a b hab) hchain
      · cases p with
        | nil => cases hhead
        | cons x0 rest =>
          have hx0 : x0 = x := Option.some.inj hhead
          rw [List.map_cons, List.head?_cons, Option.some.injEq]
          rw [hx0]
          exact (isStartingLoc_iff isRed x).mp (List.mem_filter.mp hx).2

/-- Completeness half of C1: any chain makes `oneSideTest` report a win. -/
theorem oneSideTest_of_chain (g : GameState) (isRed : Bool) (p : List action2D)
    (hchainP : isChain g isRed p) : g.oneSideTest isRed = true := by
  obtain ⟨hne, hstones, hchain, hhead, hlast⟩ := hchainP
  have hlocs : ∀ a ∈ p, a ∈ pieceLocsOf g isRed := fun a ha =>
    (mem_pieceLocsOf g isRed a).mpr (hstones a ha)
  have hstep : List.Chain' (fun u v => (v - u).natAbs ≤ 1)
      (p.map (edgeCoord isRed)) := by
    rw [List.chain'_map]
    exact List.Chain'.imp (fun a b hab => hexAdj_edgeCoord_step isRed a b hab) hchain
  have hhit : ∀ k : Int, 0 ≤ k → k ≤ 10 → ∃ a ∈ p, edgeCoord isRed a = k := by
    intro k hk0 hk10
    have hk := chain_int_hits (p.map (edgeCoord isRed)) k hstep 0 10 hhead hlast hk0 hk10
    rw [List.mem_map] at hk
    obtain ⟨a, ha, hfa⟩ := hk
    exact ⟨a, ha, hfa⟩
  have hsub : Finset.Icc (0 : Int) 10 ⊆
      (pieceLocsOf g isRed).toFinset.image (edgeCoord isRed) := by
    intro k hk
    rw [Finset.mem_Icc] at hk
    obtain ⟨a, ha, hfa⟩ := hhit k hk.1 hk.2
    rw [Finset.mem_image]
    exact ⟨a, by rw [List.mem_toFinset]; exact hlocs a ha, hfa⟩
  have h11 : 11 ≤ (pieceLocsOf g isRed).length := by
    have h1 : (Finset.Icc (0 : Int) 10).card = 11 := rfl
    have h2 := Finset.card_le_card hsub
    have h3 := Finset.card_image_le (s := (pieceLocsOf g isRed).toFinset)
      (f := edgeCoord isRed)
    have h4 := (pieceLocsOf g isRed).toFinset_card_le
    omega
  cases hp : p with
  | nil => exact absurd hp hne
  | cons x rest =>
    subst hp
    have hfx : edgeCoord isRed x = 0 := by
      rw [List.map_cons, List.head?_cons] at hhead
      exact Option.some.inj hhead
    have hxSL : x ∈ (pieceLocsOf g isRed).filter fun a => isStartingLoc isRed a :=
      List.mem_filter.mpr ⟨hlocs x (List.mem_cons_self _ _),
        (isStartingLoc_iff isRed x).mpr hfx⟩
    have hslne :
        ¬((pieceLocsOf g isRed).filter fun a => isStartingLoc isRed a).length = 0 := by
      intro h0
      rw [List.length_eq_zero] at h0
      rw [h0] at hxSL
      cases hxSL
    rw [oneSideTest_eq, if_neg (by omega), if_neg hslne]
    have hnd : ((pieceLocsOf g isRed).filter fun a => !isStartingLoc isRed a).Nodup :=
      (pieceLocsOf_nodup g isRed).filter _
    apply dfs_complete isRed _ _ _ le_rfl hnd
    have hex : ∃ a ∈ x :: rest, edgeCoord isRed a = 0 :=
      ⟨x, List.mem_cons_self _ _, hfx⟩
    obtain ⟨p₁, w, p₂, hsplit, hw0, hp₂⟩ :=
      exists_last_split (fun a => edgeCoord isRed a = 0) (x :: rest) hex
    have hchainS : List.Chain' hexAdj (w :: p₂) :=
      (List.chain'_append.mp (hsplit ▸ hchain)).2.1
    obtain ⟨q, hqne, hqh, hql, hqc, hqs, hqn⟩ :=
      chain_dedup hexAdj (w :: p₂).length (w :: p₂) le_rfl (by simp) hchainS
    have hqp : ∀ a ∈ q, a ∈ x :: rest := by
      intro a ha
      rw [hsplit]
      exact List.mem_append_right _ (hqs a ha)
    have hqadj : List.Chain' (fun a b => b ∈ linkCands a) q :=
      chain'_imp_of_mem q
        (fun a _ b hb hab => hexAdj_mem_linkCands a b hab
          ((hstones b (hqp b hb)).1)) hqc
    have hwmem : w ∈ x :: rest := by
      rw [hsplit]
      exact List.mem_append_right _ (List.mem_cons_self _ _)
    have hwSL : w ∈ (pieceLocsOf g isRed).filter fun a => isStartingLoc isRed a :=
      List.mem_filter.mpr ⟨hlocs w hwmem, (isStartingLoc_iff isRed w).mpr hw0⟩
    cases q with
    | nil => exact absurd rfl hqne
    | cons w' q' =>
      have hw' : w' = w := Option.some.inj hqh
      refine ⟨w', by rw [hw']; exact hwSL, ⟨w' :: q', rfl, hqadj, ?_, ?_, ?_⟩⟩
      · intro a ha
        have haq : a ∈ w' :: q' := List.mem_cons_of_mem _ ha
        have haw : a ≠ w' := by
          intro hcon
          subst hcon
          exact (List.nodup_cons.mp hqn).1 ha
        have hap2 : a ∈ p₂ := by
          have := hqs a haq
          rcases List.mem_cons.mp this with hcon | h2
          · rw [hw'] at haw
            exact absurd hcon haw
          · exact h2
        refine List.mem_filter.mpr ⟨hlocs a (hqp a haq), ?_⟩
        have hnot : ¬ isStartingLoc isRed a = true := fun hcon =>
          hp₂ a hap2 ((isStartingLoc_iff isRed a).mp hcon)
        simp [hnot]
      · exact (List.nodup_cons.mp hqn).2
      · rw [List.getLast?_map, hql, ← List.getLast?_map]
        rw [hsplit, List.map_append,
          List.getLast?_append_of_ne_nil _ (by simp)] at hlast
        exact hlast

/-- C1: `checkWinner`'s per-side test (`oneSideTest`) detects exactly the
boards with a contiguous hex-adjacent chain of that side's stones joining the
side's starting edge to its target edge: (a) whenever such a chain exists — of
any shape — a win is reported; (b) on a board whose connecting chain is unique
(every chain passes through the same set of cells `C`), removing any single
stone of `C` makes the test report no win for that side. -/
theorem oneSideTest_chain_correct (g : GameState) (isRed : Bool) :
    (∀ p, isChain g isRed p → g.oneSideTest isRed = true) ∧
    (∀ C x, isChain g isRed C →
      (∀ p, isChain g isRed p → ∀ a, a ∈ p ↔ a ∈ C) →
      x ∈ C → (removeStone g x).oneSideTest isRed = false) := by
  constructor
  · intro p hp
    exact oneSideTest_of_chain g isRed p hp
  · intro C x hC huniq hxC
    by_contra hcon
    rw [Bool.not_eq_false] at hcon
    obtain ⟨p, hp⟩ := chain_of_oneSideTest (removeStone g x) isRed hcon
    obtain ⟨hne, hstones, hchain, hhead, hlast⟩ := hp
    have hmark : (if isRed then (1 : Int) else -1) ≠ 0 := by
      cases isRed <;> norm_num
    have heq0 : (removeStone g x).board x.actionX x.actionY = 0 := by
      unfold removeStone
      simp
    have hxnot : x ∉ p := by
      intro hxp
      exact hmark ((hstones x hxp).2.symm.trans heq0)
    have hpg : isChain g isRed p := by
      refine ⟨hne, ?_, hchain, hhead, hlast⟩
      intro a ha
      have h1 := hstones a ha
      have hax : a ≠ x := fun hcon2 => hxnot (hcon2 ▸ ha)
      have hco : ¬(a.actionX = x.actionX ∧ a.actionY = x.actionY) := by
        rintro ⟨h3, h4⟩
        apply hax
        cases a
        cases x
        simp_all
      have heq2 : (removeStone g x).board a.actionX a.actionY =
          g.board a.actionX a.actionY := by
        unfold removeStone
        simp [hco]
      exact ⟨h1.1, by rw [← heq2]; exact h1.2⟩
    exact hxnot ((huniq p hpg x).mpr hxC)

/-- The stones of the column test board are exactly the column-0 cells. -/
theorem colBoard_stone (i j : Int) :
    colBoard.board i j = 1 ↔ 0 ≤ i ∧ i ≤ 10 ∧ j = 0 := by
  unfold colBoard
  dsimp only
  split
  · next hcond => exact iff_of_true rfl hcond
  · next hcond => exact iff_of_false (by norm_num) hcond

theorem mem_colChain (a : action2D) :
    a ∈ colChain ↔ 0 ≤ a.actionX ∧ a.actionX ≤ 10 ∧ a.actionY = 0 := by
  unfold colChain
  rw [List.mem_map]
  constructor
  · rintro ⟨i, hi, rfl⟩
    rw [List.mem_range] at hi
    refine ⟨Int.natCast_nonneg i, ?_, rfl⟩
    show (i : Int) ≤ 10
    omega
  · rintro ⟨h1, h2, h3⟩
    cases a with
    | mk ax ay =>
      dsimp only at h1 h2 h3
      subst h3
      refine ⟨ax.toNat, by rw [List.mem_range]; omega, ?_⟩
      rw [action2D.mk.injEq]
      exact ⟨by omega, rfl⟩

/-- On the column test board every red chain passes through exactly the
column cells: the chain's cells are column cells, and conversely the discrete
intermediate value property forces every row `0..10` to be visited, and the
only stone in each row is the column cell. -/
theorem colChain_unique (p : List action2D) (hp : isChain colBoard true p) :
    ∀ a, a ∈ p ↔ a ∈ colChain := by
  obtain ⟨hne, hstones, hchain, hhead, hlast⟩ := hp
  intro a
  constructor
  · intro hap
    have hb : colBoard.board a.actionX a.actionY = 1 := by
      simpa using (hstones a hap).2
    rw [mem_colChain]
    exact (colBoard_stone _ _).mp hb
  · intro hac
    rw [mem_colChain] at hac
    obtain ⟨h0, h10, hy⟩ := hac
    have hstep : List.Chain' (fun u v => (v - u).natAbs ≤ 1)
        (p.map (edgeCoord true)) := by
      rw [List.chain'_map]
      exact List.Chain'.imp (fun c d hcd => hexAdj_edgeCoord_step true c d hcd) hchain
    have hk := chain_int_hits (p.map (edgeCoord true)) a.actionX hstep 0 10
      hhead hlast h0 h10
    rw [List.mem_map] at hk
    obtain ⟨b, hbp, hfb⟩ := hk
    have hb2 : colBoard.board b.actionX b.actionY = 1 := by
      simpa using (hstones b hbp).2
    have hb3 := (colBoard_stone _ _).mp hb2
    have hba : b = a := by
      unfold edgeCoord at hfb
      simp only [if_true] at hfb
      cases a
      cases b
      dsimp only at hfb hy hb3 ⊢
      rw [action2D.mk.injEq]
      exact ⟨hfb, by rw [hb3.2.2, hy]⟩
    rw [← hba]
    exact hbp

/-- Witness for C1 on the column test board: the straight column is a chain
(so a red win is reported via part (a)), it is the unique red chain, and
removing its middle stone `(5,0)` makes the test report no red win via
part (b). -/
theorem oneSideTest_chain_correct_witness :
    isChain colBoard true colChain ∧
    (⟨5, 0⟩ : action2D) ∈ colChain ∧
    colBoard.oneSideTest true = true ∧
    (removeStone colBoard ⟨5, 0⟩).oneSideTest true = false := by
  have hchain : isChain colBoard true colChain := by decide
  refine ⟨hchain, by decide, ?_, ?_⟩
  · exact (oneSideTest_chain_correct colBoard true).1 colChain hchain
  · exact (oneSideTest_chain_correct colBoard true).2 colChain ⟨5, 0⟩ hchain
      colChain_unique (by decide)
